import Mathlib

/-!
Verification of the parakeet context-sensitive chart parser.

This file gives a shallow embedding of the Python sources
(`rules.py`, `matches.py`, `interactions.py`, `parser.py`) and proves
properties of the embedded definitions.  Byte strings are modelled as
`List Nat`, the compiled regular expression of a terminal rule is
modelled as an abstract prefix-matching function `String → Option Nat`
(returning the length of the match, as `match.end()` does), and Python
exceptions are modelled by an explicit error type `PyErr` threaded
through `Except`.
-/

namespace Parakeet

/-- Python exceptions relevant to the parser, as explicit error values.
`assertE` is `AssertionError`, `typeE` is `TypeError` (calling or
unpacking `None`), `attrE` is `AttributeError` (attribute access on
`None`), `indexE` is `IndexError`, `keyE` is `KeyError`, and `cyclicE`
is the dedicated `CyclicMatchError`. -/
inductive PyErr where
  | assertE
  | typeE
  | attrE
  | indexE
  | keyE
  | cyclicE
  | regexE
deriving DecidableEq, Repr

/-- Polarity of an expectation: `amp` is the positive "&" and `bang`
the negative "!" (rules.py, class EX). -/
inductive EXty where
  | amp
  | bang
deriving DecidableEq, Repr

/-- Rule expectation `EX(type, ext)` from rules.py. -/
structure EXn where
  ty : EXty
  ext : String
deriving DecidableEq, Repr

/-- Expectation as a predicate (`EX.__call__` in rules.py): a positive
expectation holds iff the external is the target, a negative one iff it
is not. -/
def EXn.check (e : EXn) (external : String) : Bool :=
  match e.ty with
  | .amp => e.ext == external
  | .bang => e.ext != external

/-- Substitution rule `SR(ext, act, left, right)` from rules.py.  The
dataclass performs no validation of `act`. -/
structure SRule where
  ext : String
  act : List String
  left : Option EXn
  right : Option EXn
deriving DecidableEq, Repr

/-- Terminal rule `TR(ext, act)` from rules.py; `rmatch` models the
compiled regex `regex.match` restricted to what the parser uses: the
length of a prefix match of the given character sequence, or `none`
when the regex does not match. -/
structure TRule where
  ext : String
  rmatch : List Char → Option Nat

/-- A rule is either a terminal or a substitution rule. -/
inductive PRule where
  | tr (r : TRule)
  | sr (r : SRule)

/-- The external of a rule (`Rule.ext`). -/
def PRule.ext : PRule → String
  | .tr r => r.ext
  | .sr r => r.ext

/-- The right expectation of a rule, `getattr(rule, "right", None)`:
terminal rules have none. -/
def PRule.rightEx : PRule → Option EXn
  | .tr _ => none
  | .sr r => r.right

/-- Number of base-256 digits of `n`, with structural fuel so that the
kernel can evaluate it. -/
def digits256Aux : Nat → Nat → Nat
  | 0, _ => 0
  | _+1, 0 => 0
  | fuel+1, n+1 => 1 + digits256Aux fuel ((n+1) / 256)

/-- Length in bytes used by `to_bytes` (matches.py): the ceiling of the
base-256 logarithm of `mx`, i.e. the number of base-256 digits of
`mx - 1`. -/
def byteLen (mx : Nat) : Nat := digits256Aux mx (mx - 1)

/-- Big-endian digits of `i` with a fixed number of bytes. -/
def toBytesAux : Nat → Nat → List Nat
  | _, 0 => []
  | i, k+1 => toBytesAux (i / 256) k ++ [i % 256]

/-- `to_bytes(i, _max)` from matches.py: `i` in big-endian bytes of
fixed length `⌈log₂₅₆ mx⌉`. -/
def toBytes (i mx : Nat) : List Nat := toBytesAux i (byteLen mx)

/-- A complete match (matches.py, class CompleteMatch): rule, half-open
span `[start, close)`, canonical node name, consumed children, and the
optional left and right brothers recorded at construction time.  The
derived byte representations `crepr`/`lrepr`/`rrepr` are recomputed by
functions below instead of being stored. -/
inductive CM where
  | mk (rule : PRule) (start close : Nat) (name : List Nat)
      (children : List CM) (lbro rbro : Option CM)

/-- The rule of a complete match. -/
def CM.rule : CM → PRule
  | .mk r _ _ _ _ _ _ => r

/-- The start offset of a complete match. -/
def CM.start : CM → Nat
  | .mk _ s _ _ _ _ _ => s

/-- The close offset of a complete match. -/
def CM.close : CM → Nat
  | .mk _ _ c _ _ _ _ => c

/-- The canonical node name of a complete match. -/
def CM.name : CM → List Nat
  | .mk _ _ _ n _ _ _ => n

/-- The children of a complete match. -/
def CM.children : CM → List CM
  | .mk _ _ _ _ cs _ _ => cs

/-- The left-brother of a complete match. -/
def CM.lbro : CM → Option CM
  | .mk _ _ _ _ _ lb _ => lb

/-- The right-brother of a complete match. -/
def CM.rbro : CM → Option CM
  | .mk _ _ _ _ _ _ rb => rb

/-- The external of a match (`Match.external`). -/
def CM.external (m : CM) : String := m.rule.ext

mutual

/-- Central representation (`Match.__post_init__`): the node name
followed by the central representations of all children, in reverse
Polish notation. -/
def CM.crepr : CM → List Nat
  | .mk _ _ _ n cs _ _ => n ++ CM.creprList cs

/-- Concatenation of the central representations of a list of
matches. -/
def CM.creprList : List CM → List Nat
  | [] => []
  | c :: cs => CM.crepr c ++ CM.creprList cs

end

/-- Left representation of a complete match
(`Match.__post_init__`): the left-brother's left representation
followed by its central representation; empty without a left-brother.
Complete matches carry no `upon`, so nothing more is appended. -/
def CM.lrepr : CM → List Nat
  | .mk _ _ _ _ _ none _ => []
  | .mk _ _ _ _ _ (some lb) _ => CM.lrepr lb ++ CM.crepr lb

theorem CM.sizeOf_children_lt (m : CM) : sizeOf m.children < sizeOf m := by
  cases m with
  | mk r s c n cs lb rb => simp [CM.children]; omega

theorem CM.sizeOf_lt_of_mem_children {c m : CM} (h : c ∈ m.children) :
    sizeOf c < sizeOf m :=
  lt_trans (List.sizeOf_lt_of_mem h) (CM.sizeOf_children_lt m)

theorem CM.sizeOf_lt_of_rbro {r m : CM} (h : m.rbro = some r) :
    sizeOf r < sizeOf m := by
  cases m with
  | mk ru s c n cs lb rb =>
    simp [CM.rbro] at h
    subst h
    simp
    omega

theorem CM.sizeOf_lt_of_lbro {l m : CM} (h : m.lbro = some l) :
    sizeOf l < sizeOf m := by
  cases m with
  | mk ru s c n cs lb rb =>
    simp [CM.lbro] at h
    subst h
    simp
    omega

mutual

/-- Right representation (`Match.__post_init__`): the effective
right-brother — the own `rbro` if present, otherwise the `rbro` of the
last child if any — contributes its central representation followed by
its own right representation; the walk over the children list makes
the recursion structural. -/
def CM.rrepr : CM → List Nat
  | .mk _ _ _ _ _ _ (some rb) => CM.crepr rb ++ CM.rrepr rb
  | .mk _ _ _ _ cs _ none => CM.rreprLast cs

/-- The right-representation contribution of the `rbro` of the last
element of a children list; empty for no children or no `rbro`. -/
def CM.rreprLast : List CM → List Nat
  | [] => []
  | [.mk _ _ _ _ _ _ (some rb)] => CM.crepr rb ++ CM.rrepr rb
  | [.mk _ _ _ _ _ _ none] => []
  | _ :: y :: rest => CM.rreprLast (y :: rest)

end

/-- A forward match (matches.py, class ForwardMatch): like a complete
match but carrying an optional `upon` anchor instead of a
right-brother. -/
structure FM where
  rule : SRule
  start : Nat
  close : Nat
  name : List Nat
  children : List CM
  lbro : Option CM
  upon : Option CM

/-- The external of a forward match. -/
def FM.external (f : FM) : String := f.rule.ext

/-- The awaited externals of a forward match
(`ForwardMatch.awaited`): the suffix of the rule body not yet consumed,
`rule.act[len(children):]`. -/
def FM.awaited (f : FM) : List String := f.rule.act.drop f.children.length

/-- Central representation of a forward match, like for a complete
match. -/
def FM.crepr (f : FM) : List Nat := f.name ++ CM.creprList f.children

/-- Left representation of a forward match: as for a complete match,
with the `upon` anchor's central representation appended when
present. -/
def FM.lrepr (f : FM) : List Nat :=
  (match f.lbro with
   | none => []
   | some lb => CM.lrepr lb ++ CM.crepr lb) ++
  (match f.upon with
   | none => []
   | some u => CM.crepr u)

/-- Right representation of a forward match: a forward match has no
`rbro` field, so the effective right-brother is the `rbro` of the last
child if any. -/
def FM.rrepr (f : FM) : List Nat :=
  match f.children.getLast? with
  | none => []
  | some lastc =>
    match lastc.rbro with
    | none => []
    | some rb => CM.crepr rb ++ CM.rrepr rb

/-- Equality of complete matches (`Match` dataclass with
`compare=True` only on `crepr`, `lrepr` and `rrepr`): two matches are
equal iff their canonical byte representations agree. -/
def CM.eqv (a b : CM) : Bool :=
  a.crepr == b.crepr && a.lrepr == b.lrepr && a.rrepr == b.rrepr

/-- Equality of forward matches, analogously. -/
def FM.eqv (a b : FM) : Bool :=
  a.crepr == b.crepr && a.lrepr == b.lrepr && a.rrepr == b.rrepr

/-- Hash of a complete match: derived from the canonical triple only,
as the frozen dataclass hash is. -/
def CM.hashv (m : CM) : UInt64 := hash (m.crepr, m.lrepr, m.rrepr)

/-- Hash of a forward match, analogously. -/
def FM.hashv (f : FM) : UInt64 := hash (f.crepr, f.lrepr, f.rrepr)

/-- Python `==` between an optional match and a match: `None` is never
equal to a match; otherwise canonical equality. -/
def cmOptEq (o : Option CM) (m : CM) : Bool :=
  match o with
  | none => false
  | some x => x.eqv m

/-- Python `x in xs` over a list of matches, by canonical equality. -/
def memEqC (m : CM) (l : List CM) : Bool := l.any (fun x => x.eqv m)

/-- Python `xs.index(x)`: index of the first element canonically equal
to the given match. -/
def firstIdxWhere (p : CM → Bool) : List CM → Option Nat
  | [] => none
  | x :: xs => if p x then some 0 else (firstIdxWhere p xs).map (· + 1)

/-- Python `max(i for i, x in enumerate(xs) if p x)`: the largest index
whose element satisfies the predicate. -/
def lastIdxWhere (p : CM → Bool) : List CM → Option Nat
  | [] => none
  | x :: xs =>
    match lastIdxWhere p xs with
    | some j => some (j + 1)
    | none => if p x then some 0 else none

/-- `CompleteMatch.wrapping_history` (matches.py): the match followed by
the wrapping history of its only child while the node has exactly one
child. -/
def wrapping_history : CM → List CM
  | .mk r s c n cs lb rb =>
    match cs with
    | [ch] => .mk r s c n cs lb rb :: wrapping_history ch
    | _ => [.mk r s c n cs lb rb]

/-- `history_at_start` (interactions.py): the match, then recursively
the history of its first child; a match without children is its own
history. -/
def history_at_start : CM → List CM
  | .mk r s c n cs lb rb =>
    match cs with
    | [] => [.mk r s c n cs lb rb]
    | ch :: _ => .mk r s c n cs lb rb :: history_at_start ch

mutual

/-- `history_at_close` (interactions.py): the match, then recursively
the history of its last child; the walk over the children list makes
the recursion structural. -/
def history_at_close : CM → List CM
  | .mk r s c n cs lb rb => .mk r s c n cs lb rb :: hacLast cs

/-- The close history of the last element of a children list; empty
for no children. -/
def hacLast : List CM → List CM
  | [] => []
  | [x] => history_at_close x
  | _ :: y :: rest => hacLast (y :: rest)

end

/-- The side parameter of `wrapping_span`. -/
inductive Side where
  | sleft
  | sright
  | sboth
  | snone
deriving DecidableEq, Repr

/-- Set equality of two lists of externals, as Python set equality:
same elements regardless of order and multiplicity. -/
def setEqv (a b : List String) : Bool :=
  a.all (fun x => b.contains x) && b.all (fun x => a.contains x)

/-- Equality of wrapping spans, as Python tuple-of-sets equality:
same length and pointwise set equality. -/
def spanEqv (a b : List (List String)) : Bool :=
  a.length == b.length && (a.zip b).all (fun p => setEqv p.1 p.2)

/-- `wrapping_span` (interactions.py): the tuple of sets of externals
along the wrapping chains of the match and, depending on the side, of
its left and right brothers. -/
def wrapping_span : CM → Side → List (List String)
  | .mk r s c n cs lb rb, side =>
    let central := [(wrapping_history (.mk r s c n cs lb rb)).map CM.external]
    let leftW :=
      match lb with
      | none => []
      | some l => if side = Side.sright then [] else wrapping_span l Side.sleft
    let rightW :=
      match rb with
      | none => []
      | some rr => if side = Side.sleft then [] else wrapping_span rr Side.sright
    if side = Side.snone then central else leftW ++ central ++ rightW

/-- `can_concat` (interactions.py): whether a complete match ending at
some position may be immediately followed by another one starting
there, comparing the recorded context requirements against the
boundary histories. -/
def can_concat (left right : CM) : Bool :=
  let leftReq := left.rbro
  let rightReq := right.lbro
  let leftHistory := history_at_close left
  let rightHistory := history_at_start right
  match leftReq, rightReq with
  | none, none => true
  | none, some rq => memEqC rq leftHistory
  | some lq, none => memEqC lq rightHistory
  | some lq, some rq =>
    if memEqC lq rightHistory && memEqC rq leftHistory then
      let leftOldest :=
        (lastIdxWhere (fun lm => cmOptEq lm.rbro lq) leftHistory).getD 0
      let leftNeeded := (firstIdxWhere (fun lm => lm.eqv rq) leftHistory).getD 0
      let rightOldest :=
        (lastIdxWhere (fun rm => cmOptEq rm.lbro rq) rightHistory).getD 0
      let rightNeeded :=
        (firstIdxWhere (fun rm => rm.eqv lq) rightHistory).getD 0
      if leftOldest < leftNeeded then rightNeeded ≤ rightOldest
      else decide (rightOldest < rightNeeded)
    else false

/-- `settle(fm, cm)` (interactions.py): complete a forward match whose
children are all present by recording `cm` as the right-brother.  The
Python asserts become `assertE`; calling a `None` expectation is a
`TypeError`; `fm.last` on an empty children tuple is an
`IndexError`. -/
def settle (fm : FM) (cm : CM) : Except PyErr CM :=
  if fm.awaited ≠ [] then .error .assertE
  else
    match fm.rule.right with
    | none => .error .typeE
    | some ex =>
      if ¬ ex.check cm.external then .error .assertE
      else
        match fm.children.getLast? with
        | none => .error .indexE
        | some lastc =>
          if ¬ can_concat lastc cm then .error .assertE
          else .ok (.mk (.sr fm.rule) fm.start fm.close fm.name
              fm.children fm.lbro (some cm))

/-- `CompleteMatch.from_forward` (matches.py): promote a forward match
with no awaited children, the right-brother being the `rbro` of the
last child; the right expectation, if any, must be satisfied by a
present right-brother. -/
def from_forward (fm : FM) : Except PyErr CM :=
  if fm.awaited ≠ [] then .error .assertE
  else
    match fm.children.getLast? with
    | none => .error .indexE
    | some lastc =>
      match fm.rule.right with
      | none => .ok (.mk (.sr fm.rule) fm.start fm.close
          fm.name fm.children fm.lbro lastc.rbro)
      | some ex =>
        match lastc.rbro with
        | none => .error .assertE
        | some r =>
          if ex.check r.external then
            .ok (.mk (.sr fm.rule) fm.start fm.close
              fm.name fm.children fm.lbro lastc.rbro)
          else .error .assertE

/-- The advanced forward match built inside `feed` (interactions.py):
children extended with `cm`, close moved to `cm.close`, and the new
left-brother inherited from `cm` exactly when the forward match had no
children and no left-brother of its own. -/
def advance (fm : FM) (cm : CM) : FM :=
  let lb := if fm.children.isEmpty && fm.lbro.isNone then cm.lbro else fm.lbro
  ⟨fm.rule, fm.start, cm.close, fm.name, fm.children ++ [cm], lb, fm.upon⟩

/-- The left side of the cycle check in `feed` (interactions.py):
mirrors the Python boolean expression including its short-circuit
evaluation, where `can_concat(newcm.lbro, prev)` with a `None`
left-brother raises an `AttributeError`. -/
def newOnLeft (newcm prev : CM) : Except PyErr Bool :=
  if prev.lbro.isNone && newcm.lbro.isSome then .ok true
  else
    match prev.lbro with
    | none => .ok false
    | some _ =>
      if ¬ spanEqv (wrapping_span prev Side.sleft)
          (wrapping_span newcm Side.sleft) then
        match newcm.lbro with
        | none => .error .attrE
        | some nl => .ok (¬ can_concat nl prev)
      else .ok false

/-- The right side of the cycle check in `feed`, symmetric to
`newOnLeft`; here `can_concat(prev, newcm.rbro)` with a `None`
right-brother raises an `AttributeError`. -/
def newOnRight (newcm prev : CM) : Except PyErr Bool :=
  if prev.rbro.isNone && newcm.rbro.isSome then .ok true
  else
    match prev.rbro with
    | none => .ok false
    | some _ =>
      if ¬ spanEqv (wrapping_span prev Side.sright)
          (wrapping_span newcm Side.sright) then
        match newcm.rbro with
        | none => .error .attrE
        | some nr => .ok (¬ can_concat prev nr)
      else .ok false

/-- The cycle check of `feed` (interactions.py): look for a previous
match with the same external in the fed child's wrapping history and
decide whether the candidate is a useless renaming.  Returns `true`
when the candidate must be rejected as cyclic. -/
def cycleCheck (newcm cm : CM) : Except PyErr Bool :=
  match (wrapping_history cm).find? (fun m => m.external == newcm.external) with
  | none => .ok false
  | some prev =>
    if spanEqv (wrapping_span newcm Side.sboth) (wrapping_span prev Side.sboth)
    then .ok true
    else
      if spanEqv (wrapping_span newcm Side.snone)
          (wrapping_span prev Side.snone) then
        match newOnLeft newcm prev with
        | .error e => .error e
        | .ok nol =>
          match newOnRight newcm prev with
          | .error e => .error e
          | .ok nor => .ok (¬ nol && ¬ nor)
      else .ok false

/-- The `upon` membership check of `feed` (interactions.py): when the
forward match has no children and carries an `upon` anchor, the fed
match must be built on top of it, i.e. the anchor must appear in the
fed match's start history. -/
def uponCheck (fm : FM) (cm : CM) : Except PyErr Unit :=
  match fm.upon with
  | some u =>
    if memEqC u (history_at_start cm) then .ok () else .error .assertE
  | none => .ok ()

/-- The left-brother check of `feed` (interactions.py): when the
forward match has no children but an own left-brother, that
left-brother must concatenate with the fed match. -/
def lbroCheck (fm : FM) (cm : CM) : Except PyErr Unit :=
  match fm.lbro with
  | some lb => if can_concat lb cm then .ok () else .error .assertE
  | none => .ok ()

/-- The left-context checks of `feed` (interactions.py): with
children, the last child must concatenate with the fed match; without
children, the `upon` and left-brother checks apply in order. -/
def feedChecks (fm : FM) (cm : CM) : Except PyErr Unit :=
  match fm.children.getLast? with
  | some lastc =>
    if can_concat lastc cm then .ok () else .error .assertE
  | none =>
    match uponCheck fm cm with
    | .error e => .error e
    | .ok _ => lbroCheck fm cm

/-- `feed(fm, cm)` (interactions.py): advance a forward match with an
awaited child, then try to promote the result to a complete match; a
failed promotion precondition returns the advanced forward match, a
rejected cycle check raises `CyclicMatchError`, and the
`AttributeError` of the cycle check propagates. -/
def feed (fm : FM) (cm : CM) : Except PyErr (FM ⊕ CM) :=
  if fm.awaited = [] then .error .assertE
  else if fm.awaited.head? ≠ some cm.external then .error .assertE
  else if fm.close ≠ cm.start then .error .assertE
  else
    match feedChecks fm cm with
    | .error e => .error e
    | .ok _ =>
      match from_forward (advance fm cm) with
      | .error .assertE => .ok (.inl (advance fm cm))
      | .error e => .error e
      | .ok newcm =>
        match cycleCheck newcm cm with
        | .error e => .error e
        | .ok true => .error .cyclicE
        | .ok false => .ok (.inr newcm)

/-- `CompleteMatch.from_scan` (matches.py): scan the input from
`start` with a terminal rule; the walrus-assert on a failed regex match
is an assertion failure, otherwise the terminal match's name is the
rule name followed by start and close in fixed-width bytes. -/
def from_scan (rule : TRule) (string : String) (start : Nat)
    (name : List Nat) : Except PyErr CM :=
  match rule.rmatch (string.data.drop start) with
  | none => .error .assertE
  | some len => .ok (.mk (.tr rule) start (start + len)
      (name ++ toBytes start (string.length + 1)
        ++ toBytes (start + len) (string.length + 1)) [] none none)

/-- `ForwardMatch.from_rule` (matches.py): a fresh forward match at a
position, with no children yet. -/
def FM.from_rule (rule : SRule) (start : Nat) (name : List Nat)
    (lb upon : Option CM) : FM :=
  ⟨rule, start, start, name, [], lb, upon⟩

/-- Rule name assigned by the parser (`Parser.__init__`): the rule's
index in big-endian bytes of fixed width `⌈log₂₅₆ #rules⌉`. -/
def naming (g : List PRule) (i : Nat) : List Nat := toBytes i g.length

/-- The set of external names of a rule list, as the parser and the
chart structures compute it (deduplicated). -/
def externalsOf (g : List PRule) : List String :=
  (g.map PRule.ext).eraseDups

/-- `CompleteMatchStructure` (parser.py): complete matches indexed by
start position and external, with a `none` bucket holding every match
at a position, plus the flat duplicate-detection list. -/
structure CMS where
  buckets : Nat → Option String → List CM
  allMatches : List CM

/-- The empty complete-match structure. -/
def CMS.start : CMS := ⟨fun _ _ => [], []⟩

/-- `CompleteMatchStructure.select`. -/
def CMS.select (s : CMS) (start : Nat) (external : Option String) :
    List CM :=
  s.buckets start external

/-- `CompleteMatchStructure.add`: insert unless a canonically equal
match is already present, appending to the match's own bucket and to
the `none` bucket; the boolean tells whether insertion happened. -/
def CMS.add (s : CMS) (m : CM) : CMS × Bool :=
  if s.allMatches.any (fun x => x.eqv m) then (s, false)
  else
    (⟨fun i e =>
        if i == m.start && (e == some m.external || e == (none : Option String))
        then s.buckets i e ++ [m]
        else s.buckets i e,
      s.allMatches ++ [m]⟩, true)

/-- `ForwardMatchStructure` (parser.py): forward matches indexed by
close position and awaited external, plus the duplicate-detection list
and the known externals. -/
structure FMS where
  buckets : Nat → String → List FM
  allMatches : List FM
  externals : List String

/-- The empty forward-match structure over the given externals. -/
def FMS.start (externals : List String) : FMS := ⟨fun _ _ => [], [], externals⟩

/-- `ForwardMatchStructure.select`. -/
def FMS.select (s : FMS) (close : Nat) (external : String) : List FM :=
  s.buckets close external

/-- `ForwardMatchStructure.add`: insert unless already present.  A
forward with awaited children goes at its close under the first awaited
external; one with no awaited children unpacks its expectation (a
`TypeError` when it is `None`): a positive expectation files it under
the target, a negative one files it under every known external
satisfying the expectation.  Accessing an unknown bucket key is a
`KeyError`. -/
def FMS.add (s : FMS) (f : FM) : Except PyErr (FMS × Bool) :=
  if s.allMatches.any (fun x => x.eqv f) then .ok (s, false)
  else
    match f.awaited with
    | [] =>
      match f.rule.right with
      | none => .error .typeE
      | some ex =>
        match ex.ty with
        | .amp =>
          if s.externals.contains ex.ext then
            .ok (⟨fun i x =>
                if i == f.close && x == ex.ext then s.buckets i x ++ [f]
                else s.buckets i x,
              s.allMatches ++ [f], s.externals⟩, true)
          else .error .keyE
        | .bang =>
          .ok (⟨fun i x =>
              if i == f.close && s.externals.contains x && ex.check x then
                s.buckets i x ++ [f]
              else s.buckets i x,
            s.allMatches ++ [f], s.externals⟩, true)
    | a :: _ =>
      if s.externals.contains a then
        .ok (⟨fun i x =>
            if i == f.close && x == a then s.buckets i x ++ [f]
            else s.buckets i x,
          s.allMatches ++ [f], s.externals⟩, true)
      else .error .keyE

/-- Insert a forward match into a Python-set-like list, deduplicating
by canonical equality. -/
def insF (l : List FM) (f : FM) : List FM :=
  if l.any (fun x => x.eqv f) then l else l ++ [f]

/-- Insert a complete match into a Python-set-like list, deduplicating
by canonical equality. -/
def insC (l : List CM) (m : CM) : List CM :=
  if l.any (fun x => x.eqv m) then l else l ++ [m]

/-- Union of a Python-set-like list with new elements (`set.update`). -/
def insListF (l : List FM) (nf : List FM) : List FM := nf.foldl insF l

/-- Union of a Python-set-like list with new elements (`set.update`). -/
def insListC (l : List CM) (nc : List CM) : List CM := nc.foldl insC l

/-- One settle-or-feed attempt as the driver performs it
(parser.py, `predict`/`complete` loops): assertion failures and cycle
rejections are swallowed, other exceptions propagate. -/
def tryInteract (fm : FM) (cm : CM) : Except PyErr (Option (FM ⊕ CM)) :=
  let r : Except PyErr (FM ⊕ CM) :=
    if fm.awaited.isEmpty then (settle fm cm).map Sum.inr else feed fm cm
  match r with
  | .ok v => .ok (some v)
  | .error .assertE => .ok none
  | .error .cyclicE => .ok none
  | .error e => .error e

/-- Settle-or-feed one forward match against a list of complete
matches, accumulating the generated matches. -/
def interactFold (fm : FM) :
    List CM → List FM → List CM → Except PyErr (List FM × List CM)
  | [], fs, cs => .ok (fs, cs)
  | cm :: rest, fs, cs =>
    match tryInteract fm cm with
    | .error e => .error e
    | .ok none => interactFold fm rest fs cs
    | .ok (some (.inl f)) => interactFold fm rest (insF fs f) cs
    | .ok (some (.inr c)) => interactFold fm rest fs (insC cs c)

/-- Settle-or-feed one complete match against a list of forward
matches, accumulating the generated matches. -/
def interactFoldF (cm : CM) :
    List FM → List FM → List CM → Except PyErr (List FM × List CM)
  | [], fs, cs => .ok (fs, cs)
  | fm :: rest, fs, cs =>
    match tryInteract fm cm with
    | .error e => .error e
    | .ok none => interactFoldF cm rest fs cs
    | .ok (some (.inl f)) => interactFoldF cm rest (insF fs f) cs
    | .ok (some (.inr c)) => interactFoldF cm rest fs (insC cs c)

/-- The terminal rules relevant to an awaited external
(`Parser.terminal_rules`), with their indices for naming; a `none`
awaited external selects every terminal rule. -/
def trsFor (g : List PRule) (aw : Option String) : List (Nat × TRule) :=
  g.enum.filterMap (fun p =>
    match p.2 with
    | .tr r =>
      match aw with
      | none => some (p.1, r)
      | some a => if r.ext == a then some (p.1, r) else none
    | .sr _ => none)

/-- The substitution rules relevant to an awaited external
(`Parser.substitution_rules`), with their indices for naming. -/
def srsFor (g : List PRule) (aw : Option String) : List (Nat × SRule) :=
  g.enum.filterMap (fun p =>
    match p.2 with
    | .sr r =>
      match aw with
      | none => some (p.1, r)
      | some a => if r.ext == a then some (p.1, r) else none
    | .tr _ => none)

/-- The scan part of `Parser.predict`: try every relevant terminal
rule at the forward match's close, swallowing failed matches. -/
def scanFold (g : List PRule) (string : String) (close : Nat) :
    List (Nat × TRule) → List CM → List CM
  | [], cs => cs
  | (i, r) :: rest, cs =>
    match from_scan r string close (naming g i) with
    | .ok m => scanFold g string close rest (insC cs m)
    | .error _ => scanFold g string close rest cs

/-- The prediction part of `Parser.predict`: spawn a fresh forward
match for every relevant substitution rule, resolving its left
expectation against the left context or the context's close
history. -/
def predictFold (g : List PRule) (close : Nat)
    (leftContext upon : Option CM) :
    List (Nat × SRule) → List FM → List FM
  | [], fs => fs
  | (i, r) :: rest, fs =>
    match r.left with
    | none =>
      predictFold g close leftContext upon rest
        (insF fs (FM.from_rule r close (naming g i) leftContext upon))
    | some lex =>
      match leftContext with
      | none => predictFold g close leftContext upon rest fs
      | some lc =>
        if lex.check lc.external then
          predictFold g close leftContext upon rest
            (insF fs (FM.from_rule r close (naming g i) (some lc) upon))
        else
          match (history_at_close lc).find? (fun x => lex.check x.external)
          with
          | some lb =>
            predictFold g close leftContext upon rest
              (insF fs (FM.from_rule r close (naming g i) (some lb) upon))
          | none => predictFold g close leftContext upon rest fs

/-- The awaited external determined by `Parser.predict`: the first
awaited external if any; otherwise the expectation is unpacked (a
`TypeError` when it is `None`), yielding its target for a positive
expectation and `None` (any external) for a negative one. -/
def awaitedOf (fm : FM) : Except PyErr (Option String) :=
  match fm.awaited with
  | a :: _ => .ok (some a)
  | [] =>
    match fm.rule.right with
    | none => .error .typeE
    | some ex => .ok (if ex.ty == EXty.amp then some ex.ext else none)

/-- The `upon` anchor computed by `Parser.predict`: the own anchor for
a childless forward match, else the last child's right-brother. -/
def uponOf (fm : FM) : Option CM :=
  if fm.children.isEmpty then fm.upon
  else
    match fm.children.getLast? with
    | some lastc => lastc.rbro
    | none => none

/-- The left context computed by `Parser.predict`: the left-brother
for a childless forward match, else the last child. -/
def leftContextOf (fm : FM) : Option CM :=
  match fm.children.getLast? with
  | none => fm.lbro
  | some lastc => some lastc

/-- `Parser.predict`: add the forward match to the forward chart
(nothing more on a duplicate), determine the awaited external, then
combine settlement/feed, scan and prediction. -/
def predictM (g : List PRule) (string : String) (cms : CMS) (fms : FMS)
    (fm : FM) : Except PyErr (FMS × List FM × List CM) :=
  match FMS.add fms fm with
  | .error e => .error e
  | .ok (fms1, false) => .ok (fms1, [], [])
  | .ok (fms1, true) =>
    match awaitedOf fm with
    | .error e => .error e
    | .ok aw =>
      match interactFold fm (cms.select fm.close aw) [] [] with
      | .error e => .error e
      | .ok (fs1, cs1) =>
        .ok (fms1,
          predictFold g fm.close (leftContextOf fm) (uponOf fm)
            (srsFor g aw) fs1,
          scanFold g string fm.close (trsFor g aw) cs1)

/-- `Parser.complete`: add the complete match to the complete chart
(nothing more on a duplicate), then settle or feed every forward match
waiting where it starts. -/
def completeM (cms : CMS) (fms : FMS) (cm : CM) :
    Except PyErr (CMS × List FM × List CM) :=
  match CMS.add cms cm with
  | (cms1, false) => .ok (cms1, [], [])
  | (cms1, true) =>
    match interactFoldF cm (fms.select cm.start cm.external) [] [] with
    | .error e => .error e
    | .ok (fs, cs) => .ok (cms1, fs, cs)

/-- The mutable state of one parse invocation: the two worklists and
the two chart structures. -/
structure PState where
  forwards : List FM
  completes : List CM
  cms : CMS
  fms : FMS

/-- Outcome of the driver loop: normal termination, fuel exhaustion of
the model, or an uncaught Python exception. -/
inductive RunOut where
  | done (st : PState)
  | fuelOut (st : PState)
  | err (e : PyErr)

/-- The main loop of `Parser.parse`: process forward matches first,
then complete matches, merging the generated matches into the
worklists, until both are empty. -/
def runLoop (g : List PRule) (string : String) : Nat → PState → RunOut
  | 0, st =>
    if st.forwards.isEmpty && st.completes.isEmpty then .done st
    else .fuelOut st
  | fuel + 1, st =>
    match st.forwards with
    | fm :: rest =>
      match predictM g string st.cms st.fms fm with
      | .error e => .err e
      | .ok (fms1, nf, nc) =>
        runLoop g string fuel
          ⟨insListF rest nf, insListC st.completes nc, st.cms, fms1⟩
    | [] =>
      match st.completes with
      | [] => .done st
      | cm :: rest =>
        match completeM st.cms st.fms cm with
        | .error e => .err e
        | .ok (cms1, nf, nc) =>
          runLoop g string fuel
            ⟨insListF [] nf, insListC rest nc, cms1, st.fms⟩

/-- The seeding of `Parser.parse`: a fresh forward match per
substitution rule at position 0, restricted to the expected external
when one is given. -/
def seeds (g : List PRule) (expect : Option String) : List FM :=
  (srsFor g expect).foldl
    (fun acc p => insF acc (FM.from_rule p.2 0 (naming g p.1) none none)) []

/-- The initial parser state. -/
def startState (g : List PRule) (expect : Option String) : PState :=
  ⟨seeds g expect, [], CMS.start, FMS.start (externalsOf g)⟩

/-- `Parser.parse` as a fueled transition system: the loop run from
the initial state. -/
def runParse (g : List PRule) (string : String) (expect : Option String)
    (fuel : Nat) : RunOut :=
  runLoop g string fuel (startState g expect)

/-- The returned solutions of `Parser.parse`: the complete matches
with start 0 and the expected external whose close is the length of
the input. -/
def parseResult (st : PState) (string : String) (expect : Option String) :
    List CM :=
  (st.cms.select 0 expect).filter (fun m => m.close == string.length)

/-! ### Basic lemmas about canonical equality and index searches -/

theorem CM.eqv_refl (m : CM) : m.eqv m = true := by
  simp [CM.eqv]

theorem memEqC_iff (m : CM) (l : List CM) :
    memEqC m l = true ↔ ∃ x ∈ l, x.eqv m = true := by
  simp [memEqC, List.any_eq_true]

/-- Characterization of Python `list.index`: the first index whose
element satisfies the predicate. -/
def IsFirstIdx (p : CM → Bool) (l : List CM) (i : Nat) : Prop :=
  ∃ h : i < l.length, p (l.get ⟨i, h⟩) = true ∧
    ∀ j (hj : j < l.length), j < i → p (l.get ⟨j, hj⟩) = false

/-- Characterization of `max(i for i, x in enumerate(l) if p x)`: the
largest index whose element satisfies the predicate. -/
def IsLastIdx (p : CM → Bool) (l : List CM) (i : Nat) : Prop :=
  ∃ h : i < l.length, p (l.get ⟨i, h⟩) = true ∧
    ∀ j (hj : j < l.length), i < j → p (l.get ⟨j, hj⟩) = false

theorem IsFirstIdx_zero (p : CM → Bool) (x : CM) (xs : List CM) :
    IsFirstIdx p (x :: xs) 0 ↔ p x = true := by
  constructor
  · rintro ⟨h, hp, _⟩
    exact hp
  · intro hp
    exact ⟨by simp, hp, fun j hj hj0 => absurd hj0 (by omega)⟩

theorem IsFirstIdx_succ (p : CM → Bool) (x : CM) (xs : List CM) (k : Nat) :
    IsFirstIdx p (x :: xs) (k + 1) ↔ p x = false ∧ IsFirstIdx p xs k := by
  constructor
  · rintro ⟨h, hp, hmin⟩
    have hk : k < xs.length := by simpa using h
    refine ⟨by simpa using hmin 0 (by simp) (by omega), hk, hp, ?_⟩
    intro j hj hjk
    exact hmin (j + 1) (by simpa using Nat.succ_lt_succ hj) (by omega)
  · rintro ⟨hx, hk, hp, hmin⟩
    refine ⟨by simpa using Nat.succ_lt_succ hk, hp, ?_⟩
    intro j hj hjk
    cases j with
    | zero => exact hx
    | succ j2 => exact hmin j2 (by simpa using hj) (by omega)

theorem IsLastIdx_zero (p : CM → Bool) (x : CM) (xs : List CM) :
    IsLastIdx p (x :: xs) 0 ↔ p x = true ∧ ∀ y ∈ xs, p y = false := by
  constructor
  · rintro ⟨h, hp, hmax⟩
    refine ⟨hp, ?_⟩
    intro y hy
    rcases List.mem_iff_get.mp hy with ⟨⟨j, hj⟩, rfl⟩
    exact hmax (j + 1) (by simpa using Nat.succ_lt_succ hj) (by omega)
  · rintro ⟨hp, hall⟩
    refine ⟨by simp, hp, ?_⟩
    intro j hj h0j
    cases j with
    | zero => omega
    | succ j2 =>
      have hj2 : j2 < xs.length := by simpa using hj
      exact hall (xs.get ⟨j2, hj2⟩) (List.get_mem xs j2 hj2)

theorem IsLastIdx_succ (p : CM → Bool) (x : CM) (xs : List CM) (k : Nat) :
    IsLastIdx p (x :: xs) (k + 1) ↔ IsLastIdx p xs k := by
  constructor
  · rintro ⟨h, hp, hmax⟩
    refine ⟨by simpa using h, hp, ?_⟩
    intro j hj hkj
    exact hmax (j + 1) (by simpa using Nat.succ_lt_succ hj) (by omega)
  · rintro ⟨hk, hp, hmax⟩
    refine ⟨by simpa using Nat.succ_lt_succ hk, hp, ?_⟩
    intro j hj hkj
    cases j with
    | zero => omega
    | succ j2 => exact hmax j2 (by simpa using hj) (by omega)

theorem lastIdxWhere_none_iff (p : CM → Bool) (l : List CM) :
    lastIdxWhere p l = none ↔ ∀ x ∈ l, p x = false := by
  induction l with
  | nil => simp [lastIdxWhere]
  | cons y ys ih =>
    cases htl : lastIdxWhere p ys with
    | some m =>
      simp only [lastIdxWhere, htl]
      constructor
      · rintro h
        cases h
      · intro hall
        have : ∀ x ∈ ys, p x = false := fun x hx => hall x (by simp [hx])
        rw [ih.mpr this] at htl
        cases htl
    | none =>
      simp only [lastIdxWhere, htl]
      by_cases hy : p y = true
      · simp only [hy, if_pos]
        constructor
        · rintro h
          cases h
        · intro hall
          have := hall y (by simp)
          rw [hy] at this
          cases this
      · have hy2 : p y = false := by simpa using hy
        simp only [hy2, Bool.false_eq_true, if_neg, not_false_iff]
        constructor
        · intro _
          intro x hx
          rcases List.mem_cons.mp hx with h | h
          · subst h; exact hy2
          · exact ih.mp htl x h
        · intro _
          trivial

theorem firstIdxWhere_iff (p : CM → Bool) (l : List CM) (i : Nat) :
    firstIdxWhere p l = some i ↔ IsFirstIdx p l i := by
  induction l generalizing i with
  | nil =>
    simp only [firstIdxWhere, IsFirstIdx]
    constructor
    · rintro h
      cases h
    · rintro ⟨h, _⟩
      simp at h
  | cons x xs ih =>
    by_cases hx : p x = true
    · simp only [firstIdxWhere, hx, if_pos]
      constructor
      · rintro h
        cases h
        exact (IsFirstIdx_zero p x xs).mpr hx
      · intro h
        cases i with
        | zero => rfl
        | succ k =>
          rcases (IsFirstIdx_succ p x xs k).mp h with ⟨hx2, _⟩
          rw [hx] at hx2
          cases hx2
    · have hx2 : p x = false := by simpa using hx
      simp only [firstIdxWhere, hx2, Bool.false_eq_true, if_neg,
        not_false_iff]
      cases i with
      | zero =>
        constructor
        · intro h
          rcases Option.map_eq_some'.mp h with ⟨k, _, hik⟩
          cases hik
        · intro h
          have := (IsFirstIdx_zero p x xs).mp h
          rw [hx2] at this
          cases this
      | succ k =>
        rw [IsFirstIdx_succ p x xs k]
        constructor
        · intro h
          rcases Option.map_eq_some'.mp h with ⟨m, hm, hmk⟩
          have hmk2 : m = k := by omega
          rw [hmk2] at hm
          exact ⟨hx2, (ih k).mp hm⟩
        · rintro ⟨_, h⟩
          rw [(ih k).mpr h]
          rfl

theorem lastIdxWhere_iff (p : CM → Bool) (l : List CM) (i : Nat) :
    lastIdxWhere p l = some i ↔ IsLastIdx p l i := by
  induction l generalizing i with
  | nil =>
    simp only [lastIdxWhere, IsLastIdx]
    constructor
    · rintro h
      cases h
    · rintro ⟨h, _⟩
      simp at h
  | cons x xs ih =>
    cases htl : lastIdxWhere p xs with
    | some k =>
      simp only [lastIdxWhere, htl]
      constructor
      · rintro h
        cases h
        exact (IsLastIdx_succ p x xs k).mpr ((ih k).mp htl)
      · intro h
        cases i with
        | zero =>
          rcases (IsLastIdx_zero p x xs).mp h with ⟨_, hall⟩
          have hnone := (lastIdxWhere_none_iff p xs).mpr hall
          rw [htl] at hnone
          cases hnone
        | succ m =>
          have := (ih m).mpr ((IsLastIdx_succ p x xs m).mp h)
          rw [htl] at this
          cases this
          rfl
    | none =>
      have hall := (lastIdxWhere_none_iff p xs).mp htl
      simp only [lastIdxWhere, htl]
      by_cases hx : p x = true
      · simp only [hx, if_pos]
        constructor
        · rintro h
          cases h
          exact (IsLastIdx_zero p x xs).mpr ⟨hx, hall⟩
        · intro h
          cases i with
          | zero => rfl
          | succ k =>
            rcases (IsLastIdx_succ p x xs k).mp h with ⟨hk, hp, _⟩
            have := hall (xs.get ⟨k, hk⟩) (List.get_mem xs k hk)
            rw [hp] at this
            cases this
      · have hx2 : p x = false := by simpa using hx
        simp only [hx2, Bool.false_eq_true, if_neg, not_false_iff]
        constructor
        · rintro h
          cases h
        · intro h
          cases i with
          | zero =>
            rcases (IsLastIdx_zero p x xs).mp h with ⟨hp, _⟩
            rw [hx2] at hp
            cases hp
          | succ k =>
            rcases (IsLastIdx_succ p x xs k).mp h with ⟨hk, hp, _⟩
            have := hall (xs.get ⟨k, hk⟩) (List.get_mem xs k hk)
            rw [hp] at this
            cases this

theorem IsFirstIdx_unique {p : CM → Bool} {l : List CM} {i j : Nat}
    (hi : IsFirstIdx p l i) (hj : IsFirstIdx p l j) : i = j := by
  rcases hi with ⟨hli, hpi, hmi⟩
  rcases hj with ⟨hlj, hpj, hmj⟩
  by_contra hne
  rcases Nat.lt_or_ge i j with h | h
  · have := hmj i hli h
    rw [hpi] at this
    cases this
  · have hij : j < i := by omega
    have := hmi j hlj hij
    rw [hpj] at this
    cases this

theorem IsLastIdx_unique {p : CM → Bool} {l : List CM} {i j : Nat}
    (hi : IsLastIdx p l i) (hj : IsLastIdx p l j) : i = j := by
  rcases hi with ⟨hli, hpi, hmi⟩
  rcases hj with ⟨hlj, hpj, hmj⟩
  by_contra hne
  rcases Nat.lt_or_ge i j with h | h
  · have := hmi j hlj h
    rw [hpj] at this
    cases this
  · have hij : j < i := by omega
    have := hmj i hli hij
    rw [hpi] at this
    cases this

theorem firstIdxWhere_isSome_of_mem {p : CM → Bool} {l : List CM} {x : CM}
    (hx : x ∈ l) (hp : p x = true) : ∃ i, firstIdxWhere p l = some i := by
  induction l with
  | nil => cases hx
  | cons y ys ih =>
    by_cases hy : p y = true
    · exact ⟨0, by simp [firstIdxWhere, hy]⟩
    · have hy2 : p y = false := by simpa using hy
      rcases List.mem_cons.mp hx with h | h
      · subst h; rw [hp] at hy2; cases hy2
      · rcases ih h with ⟨i, hi⟩
        exact ⟨i + 1, by simp [firstIdxWhere, hy2, hi]⟩

theorem lastIdxWhere_isSome_of_mem {p : CM → Bool} {l : List CM} {x : CM}
    (hx : x ∈ l) (hp : p x = true) : ∃ i, lastIdxWhere p l = some i := by
  induction l with
  | nil => cases hx
  | cons y ys ih =>
    cases htl : lastIdxWhere p ys with
    | some k => exact ⟨k + 1, by simp [lastIdxWhere, htl]⟩
    | none =>
      rcases List.mem_cons.mp hx with h | h
      · subst h
        exact ⟨0, by simp [lastIdxWhere, htl, hp]⟩
      · rcases ih h with ⟨i, hi⟩
        rw [htl] at hi
        cases hi

theorem history_at_close_head (m : CM) :
    ∃ t, history_at_close m = m :: t := by
  cases m with
  | mk r s c n cs lb rb => exact ⟨hacLast cs, rfl⟩

theorem history_at_start_head (m : CM) :
    ∃ t, history_at_start m = m :: t := by
  cases m with
  | mk r s c n cs lb rb =>
    cases cs with
    | nil => exact ⟨[], rfl⟩
    | cons ch rest => exact ⟨history_at_start ch, rfl⟩

/-! ### Claim C2: the concatenation predicate -/

/-- The concatenation condition exactly as the specification words it:
both requirements null; or exactly one null and the non-null one
appearing in the opposite boundary history (the close history of the
left match, respectively the start history of the right match); or both
non-null, each appearing in the opposite history, with the non-crossing
condition on the four newest-first indices. -/
def CanConcatSpec (L R : CM) : Prop :=
  (L.rbro = none ∧ R.lbro = none)
  ∨ (∃ rq, L.rbro = none ∧ R.lbro = some rq ∧
      ∃ x ∈ history_at_close L, x.eqv rq = true)
  ∨ (∃ lq, R.lbro = none ∧ L.rbro = some lq ∧
      ∃ x ∈ history_at_start R, x.eqv lq = true)
  ∨ (∃ lq rq lo ln ro rn, L.rbro = some lq ∧ R.lbro = some rq ∧
      IsLastIdx (fun lm => cmOptEq lm.rbro lq) (history_at_close L) lo ∧
      IsFirstIdx (fun lm => lm.eqv rq) (history_at_close L) ln ∧
      IsLastIdx (fun rm => cmOptEq rm.lbro rq) (history_at_start R) ro ∧
      IsFirstIdx (fun rm => rm.eqv lq) (history_at_start R) rn ∧
      (if lo < ln then rn ≤ ro else ro < rn))

theorem IsFirstIdx_to_mem {p : CM → Bool} {l : List CM} {i : Nat}
    (h : IsFirstIdx p l i) : ∃ x ∈ l, p x = true := by
  rcases h with ⟨hlt, hp, _⟩
  exact ⟨l.get ⟨i, hlt⟩, List.get_mem l i hlt, hp⟩

/-- Claim C2: for all complete matches `L` and `R`, `can_concat(L, R)`
returns true iff both `L.rbro` and `R.lbro` are null; or exactly one is
null and the non-null requirement appears in the opposite side's
boundary history; or both are non-null, each appears in the opposite
history, and — with indices from newest to oldest, `left_oldest` the
max index whose `rbro` equals `L.rbro`, `left_needed` the index of
`R.lbro` in the left history, and symmetrically on the right — the
non-crossing condition holds: if `left_oldest < left_needed` then
`right_needed ≤ right_oldest`, otherwise
`right_oldest < right_needed`; in every other case it returns false. -/
theorem C2_can_concat_spec (L R : CM) :
    can_concat L R = true ↔ CanConcatSpec L R := by
  rcases history_at_close_head L with ⟨ltl, hLH⟩
  rcases history_at_start_head R with ⟨rtl, hRH⟩
  cases hL : L.rbro with
  | none =>
    cases hR : R.lbro with
    | none =>
      simp only [can_concat, hL, hR]
      unfold CanConcatSpec
      constructor
      · intro _
        exact Or.inl ⟨hL, hR⟩
      · intro _
        trivial
    | some rq =>
      simp only [can_concat, hL, hR]
      unfold CanConcatSpec
      rw [memEqC_iff]
      constructor
      · intro h
        exact Or.inr (Or.inl ⟨rq, hL, hR, h⟩)
      · rintro (⟨_, h⟩ | ⟨rq2, _, hrq2, h⟩ | ⟨lq2, _, hlq2, _⟩ |
          ⟨lq2, rq2, lo, ln, ro, rn, hlq2, _⟩)
        · rw [hR] at h
          cases h
        · rw [hR] at hrq2
          cases hrq2
          exact h
        · rw [hL] at hlq2
          cases hlq2
        · rw [hL] at hlq2
          cases hlq2
  | some lq =>
    cases hR : R.lbro with
    | none =>
      simp only [can_concat, hL, hR]
      unfold CanConcatSpec
      rw [memEqC_iff]
      constructor
      · intro h
        exact Or.inr (Or.inr (Or.inl ⟨lq, hR, hL, h⟩))
      · rintro (⟨hlq2, _⟩ | ⟨rq2, _, hrq2, _⟩ | ⟨lq2, _, hlq2, h⟩ |
          ⟨lq2, rq2, lo, ln, ro, rn, _, hrq2, _⟩)
        · rw [hL] at hlq2
          cases hlq2
        · rw [hR] at hrq2
          cases hrq2
        · rw [hL] at hlq2
          cases hlq2
          exact h
        · rw [hR] at hrq2
          cases hrq2
    | some rq =>
      simp only [can_concat, hL, hR]
      unfold CanConcatSpec
      by_cases hm1 : memEqC lq (history_at_start R) = true
      · by_cases hm2 : memEqC rq (history_at_close L) = true
        · rcases (memEqC_iff rq _).mp hm2 with ⟨x2, hx2, hpx2⟩
          rcases @firstIdxWhere_isSome_of_mem (fun lm => lm.eqv rq) _ _
            hx2 hpx2 with ⟨ln, hln⟩
          rcases (memEqC_iff lq _).mp hm1 with ⟨x1, hx1, hpx1⟩
          rcases @firstIdxWhere_isSome_of_mem (fun rm => rm.eqv lq) _ _
            hx1 hpx1 with ⟨rn, hrn⟩
          have hLmem : L ∈ history_at_close L := by
            rw [hLH]; exact List.mem_cons_self L ltl
          have hRmem : R ∈ history_at_start R := by
            rw [hRH]; exact List.mem_cons_self R rtl
          have hpl : cmOptEq L.rbro lq = true := by
            rw [hL]; simpa [cmOptEq] using CM.eqv_refl lq
          have hpr : cmOptEq R.lbro rq = true := by
            rw [hR]; simpa [cmOptEq] using CM.eqv_refl rq
          rcases @lastIdxWhere_isSome_of_mem (fun lm => cmOptEq lm.rbro lq)
            _ _ hLmem hpl with ⟨lo, hlo⟩
          rcases @lastIdxWhere_isSome_of_mem (fun rm => cmOptEq rm.lbro rq)
            _ _ hRmem hpr with ⟨ro, hro⟩
          rw [hm1, hm2]
          simp only [Bool.and_self, if_true, hln, hlo, hrn, hro,
            Option.getD_some]
          constructor
          · intro h
            refine Or.inr (Or.inr (Or.inr ⟨lq, rq, lo, ln, ro, rn, hL, hR,
              (lastIdxWhere_iff _ _ _).mp hlo,
              (firstIdxWhere_iff _ _ _).mp hln,
              (lastIdxWhere_iff _ _ _).mp hro,
              (firstIdxWhere_iff _ _ _).mp hrn, ?_⟩))
            by_cases hcond : lo < ln
            · rw [if_pos hcond] at h ⊢
              simpa using h
            · rw [if_neg hcond] at h ⊢
              simpa using h
          · rintro (⟨hlq2, _⟩ | ⟨rq2, hlq2, hrq2, _⟩ | ⟨lq2, hrq2, _, _⟩ |
              ⟨lq2, rq2, lo2, ln2, ro2, rn2, hlq2, hrq2, hIlo, hIln,
                hIro, hIrn, hcond⟩)
            · rw [hL] at hlq2
              cases hlq2
            · rw [hL] at hlq2
              cases hlq2
            · rw [hR] at hrq2
              cases hrq2
            · rw [hL] at hlq2
              cases hlq2
              rw [hR] at hrq2
              cases hrq2
              have e1 : lo = lo2 :=
                IsLastIdx_unique ((lastIdxWhere_iff _ _ _).mp hlo) hIlo
              have e2 : ln = ln2 :=
                IsFirstIdx_unique ((firstIdxWhere_iff _ _ _).mp hln) hIln
              have e3 : ro = ro2 :=
                IsLastIdx_unique ((lastIdxWhere_iff _ _ _).mp hro) hIro
              have e4 : rn = rn2 :=
                IsFirstIdx_unique ((firstIdxWhere_iff _ _ _).mp hrn) hIrn
              subst e1; subst e2; subst e3; subst e4
              by_cases hcond2 : lo < ln
              · rw [if_pos hcond2] at hcond ⊢
                simpa using hcond
              · rw [if_neg hcond2] at hcond ⊢
                simpa using hcond
        · have hm2f : memEqC rq (history_at_close L) = false := by
            simpa using hm2
          rw [hm2f]
          simp only [Bool.and_false, Bool.false_eq_true, if_false]
          constructor
          · intro h
            cases h
          · rintro (⟨hlq2, _⟩ | ⟨rq2, hlq2, _, _⟩ | ⟨lq2, hrq2, _, _⟩ |
              ⟨lq2, rq2, lo2, ln2, ro2, rn2, hlq2, hrq2, _, hIln, _, _, _⟩)
            · rw [hL] at hlq2
              cases hlq2
            · rw [hL] at hlq2
              cases hlq2
            · rw [hR] at hrq2
              cases hrq2
            · rw [hR] at hrq2
              cases hrq2
              have := (memEqC_iff rq _).mpr (IsFirstIdx_to_mem hIln)
              rw [this] at hm2
              exact hm2 rfl
      · have hm1f : memEqC lq (history_at_start R) = false := by
          simpa using hm1
        rw [hm1f]
        simp only [Bool.false_and, Bool.false_eq_true, if_false]
        constructor
        · intro h
          cases h
        · rintro (⟨hlq2, _⟩ | ⟨rq2, hlq2, _, _⟩ | ⟨lq2, hrq2, _, _⟩ |
            ⟨lq2, rq2, lo2, ln2, ro2, rn2, hlq2, hrq2, _, _, _, hIrn, _⟩)
          · rw [hL] at hlq2
            cases hlq2
          · rw [hL] at hlq2
            cases hlq2
          · rw [hR] at hrq2
            cases hrq2
          · rw [hL] at hlq2
            cases hlq2
            have := (memEqC_iff lq _).mpr (IsFirstIdx_to_mem hIrn)
            rw [this] at hm1
            exact hm1 rfl

/-! ### Claim C5: canonical identity, hashing, and chart deduplication -/

/-- No two elements of the list are canonically equal complete
matches. -/
def NoDupEqC (l : List CM) : Prop :=
  l.Pairwise (fun a b => a.eqv b = false)

/-- No two elements of the list are canonically equal forward
matches. -/
def NoDupEqF (l : List FM) : Prop :=
  l.Pairwise (fun a b => a.eqv b = false)

theorem CMS_add_noDup {s : CMS} {m : CM} (h : NoDupEqC s.allMatches) :
    NoDupEqC ((CMS.add s m).1.allMatches) := by
  unfold CMS.add
  by_cases hd : s.allMatches.any (fun x => x.eqv m) = true
  · rw [if_pos hd]
    exact h
  · rw [if_neg hd]
    have hall := List.any_eq_false.mp (by simpa using hd)
    unfold NoDupEqC
    rw [List.pairwise_append]
    refine ⟨h, List.pairwise_singleton _ _, ?_⟩
    intro a ha b hb
    simp only [List.mem_singleton] at hb
    subst hb
    simpa using hall a ha

theorem FMS_add_noDup {s : FMS} {f : FM} {s2 : FMS} {b : Bool}
    (h : NoDupEqF s.allMatches) (hadd : FMS.add s f = .ok (s2, b)) :
    NoDupEqF s2.allMatches := by
  unfold FMS.add at hadd
  by_cases hd : s.allMatches.any (fun x => x.eqv f) = true
  · rw [if_pos hd] at hadd
    cases hadd
    exact h
  · rw [if_neg hd] at hadd
    have hall := List.any_eq_false.mp (by simpa using hd)
    have hnew : NoDupEqF (s.allMatches ++ [f]) := by
      unfold NoDupEqF
      rw [List.pairwise_append]
      refine ⟨h, List.pairwise_singleton _ _, ?_⟩
      intro a ha b2 hb
      simp only [List.mem_singleton] at hb
      subst hb
      simpa using hall a ha
    split at hadd
    · split at hadd
      · cases hadd
      · split at hadd
        · split at hadd
          · cases hadd
            exact hnew
          · cases hadd
        · cases hadd
          exact hnew
    · split at hadd
      · cases hadd
        exact hnew
      · cases hadd

/-- Claim C5: two matches are equal iff their canonical triples
`(crepr, lrepr, rrepr)` are equal (for complete matches and for
forward matches alike), equal matches have equal hashes, and the chart
structures never hold two canonically equal matches: both start with no
duplicates and `add` preserves the absence of duplicates. -/
theorem C5_canonical_identity :
    (∀ a b : CM, a.eqv b = true ↔
        (a.crepr = b.crepr ∧ a.lrepr = b.lrepr ∧ a.rrepr = b.rrepr))
  ∧ (∀ a b : FM, a.eqv b = true ↔
        (a.crepr = b.crepr ∧ a.lrepr = b.lrepr ∧ a.rrepr = b.rrepr))
  ∧ (∀ a b : CM, a.eqv b = true → a.hashv = b.hashv)
  ∧ (∀ a b : FM, a.eqv b = true → a.hashv = b.hashv)
  ∧ (∀ (s : CMS) (m : CM), NoDupEqC s.allMatches →
      NoDupEqC ((CMS.add s m).1.allMatches))
  ∧ (∀ (s : FMS) (f : FM) (s2 : FMS) (b : Bool), NoDupEqF s.allMatches →
      FMS.add s f = .ok (s2, b) → NoDupEqF s2.allMatches)
  ∧ NoDupEqC CMS.start.allMatches
  ∧ (∀ exts, NoDupEqF (FMS.start exts).allMatches) := by
  refine ⟨?_, ?_, ?_, ?_, ?_, ?_, ?_, ?_⟩
  · intro a b
    simp [CM.eqv, and_assoc]
  · intro a b
    simp [FM.eqv, and_assoc]
  · intro a b h
    simp only [CM.eqv, Bool.and_eq_true, beq_iff_eq] at h
    unfold CM.hashv
    rw [h.1.1, h.1.2, h.2]
  · intro a b h
    simp only [FM.eqv, Bool.and_eq_true, beq_iff_eq] at h
    unfold FM.hashv
    rw [h.1.1, h.1.2, h.2]
  · intro s m h
    exact CMS_add_noDup h
  · intro s f s2 b h hadd
    exact FMS_add_noDup h hadd
  · exact List.Pairwise.nil
  · intro exts
    exact List.Pairwise.nil

/-- Concrete instance for C5: adding a match to the empty chart keeps
the chart free of canonically equal duplicates, and adding a forward
match to an empty forward chart does too. -/
theorem C5_canonical_identity_witness :
    NoDupEqC CMS.start.allMatches
  ∧ NoDupEqC ((CMS.add CMS.start (CM.mk (.sr ⟨"A", ["B"], none, none⟩)
      0 1 [0] [] none none)).1.allMatches)
  ∧ ((CM.mk (.sr ⟨"A", ["B"], none, none⟩) 0 1 [0] [] none none).eqv
      (CM.mk (.sr ⟨"A", ["B"], none, none⟩) 0 1 [0] [] none none) = true ↔
      True ∧ True ∧ True) := by
  refine ⟨C5_canonical_identity.2.2.2.2.2.2.1,
    C5_canonical_identity.2.2.2.2.1 CMS.start _
      C5_canonical_identity.2.2.2.2.2.2.1, ?_⟩
  have h := C5_canonical_identity.1
    (CM.mk (.sr ⟨"A", ["B"], none, none⟩) 0 1 [0] [] none none)
    (CM.mk (.sr ⟨"A", ["B"], none, none⟩) 0 1 [0] [] none none)
  simpa using h

/-! ### Claim C6: the tiling invariant -/

/-- A position-indexed tiling check: the children tile `[s, c)` in
order, each child starting where the previous one closed; an empty
children list requires `s = c`. -/
def tilesListB : Nat → List CM → Nat → Bool
  | s, [], c => s == c
  | s, m :: rest, c => (m.start == s) && tilesListB m.close rest c

/-- Well-formedness of a forward match: its children tile the span
from its start to its close (so for no children, `close = start`,
which is how `from_rule` builds fresh forwards). -/
def FMwf (f : FM) : Prop := tilesListB f.start f.children f.close = true

/-- The tiling invariant exactly as the specification words it for a
complete match: when children are present, the first starts at
`start`, the last closes at `close`, and adjacent children
concatenate. -/
def TiledCM (m : CM) : Prop :=
  m.children ≠ [] →
    m.children.head?.map CM.start = some m.start ∧
    m.children.getLast?.map CM.close = some m.close ∧
    ∀ i x y, m.children.get? i = some x →
      m.children.get? (i + 1) = some y → x.close = y.start

theorem tilesListB_head {s c : Nat} {x : CM} {rest : List CM}
    (h : tilesListB s (x :: rest) c = true) :
    x.start = s ∧ tilesListB x.close rest c = true := by
  simpa [tilesListB, Bool.and_eq_true] using h

theorem tilesListB_to_props {l : List CM} :
    ∀ {s c : Nat}, tilesListB s l c = true → l ≠ [] →
    l.head?.map CM.start = some s ∧
    l.getLast?.map CM.close = some c ∧
    ∀ i x y, l.get? i = some x → l.get? (i + 1) = some y →
      x.close = y.start := by
  induction l with
  | nil =>
    intro s c h hne
    cases hne rfl
  | cons x rest ih =>
    intro s c h _
    obtain ⟨hx, ht⟩ := tilesListB_head h
    refine ⟨by simp [hx], ?_, ?_⟩
    · cases rest with
      | nil =>
        have hc : x.close = c := by simpa [tilesListB] using ht
        simp [hc]
      | cons y rest2 =>
        have := (ih ht (by simp)).2.1
        simpa using this
    · intro i a b ha hb
      cases rest with
      | nil =>
        cases i with
        | zero => simp at hb
        | succ j => simp at ha
      | cons y rest2 =>
        rcases ih ht (by simp) with ⟨hh, _, hadj⟩
        cases i with
        | zero =>
          have ha2 : x = a := by simpa using ha
          have hb2 : y = b := by simpa using hb
          have hy : y.start = x.close := by simpa using hh
          rw [← ha2, ← hb2]
          exact hy.symm
        | succ j =>
          exact hadj j a b (by simpa using ha) (by simpa using hb)

theorem tilesListB_append {l : List CM} :
    ∀ {s c : Nat} {cm : CM}, tilesListB s l c = true → cm.start = c →
      tilesListB s (l ++ [cm]) cm.close = true := by
  induction l with
  | nil =>
    intro s c cm h hc
    have hs : s = c := by simpa [tilesListB] using h
    simp [tilesListB, hs, hc]
  | cons x rest ih =>
    intro s c cm h hc
    obtain ⟨hx, ht⟩ := tilesListB_head h
    simp [tilesListB, hx, ih ht hc]

theorem feed_ok_start_eq {fm : FM} {cm : CM} {r : FM ⊕ CM}
    (h : feed fm cm = .ok r) : fm.close = cm.start := by
  unfold feed at h
  by_cases h1 : fm.awaited = []
  · rw [if_pos h1] at h
    cases h
  · rw [if_neg h1] at h
    by_cases h2 : fm.awaited.head? ≠ some cm.external
    · rw [if_pos h2] at h
      cases h
    · rw [if_neg h2] at h
      by_cases h3 : fm.close ≠ cm.start
      · rw [if_pos h3] at h
        cases h
      · exact not_ne_iff.mp h3

theorem feed_checks_err {fm : FM} {cm : CM} {e : PyErr}
    (h1 : ¬ fm.awaited = []) (h2 : ¬ fm.awaited.head? ≠ some cm.external)
    (h3 : ¬ fm.close ≠ cm.start) (hc : feedChecks fm cm = .error e) :
    feed fm cm = .error e := by
  unfold feed
  rw [if_neg h1, if_neg h2, if_neg h3, hc]

theorem feed_promo_assert {fm : FM} {cm : CM} {u : Unit}
    (h1 : ¬ fm.awaited = []) (h2 : ¬ fm.awaited.head? ≠ some cm.external)
    (h3 : ¬ fm.close ≠ cm.start) (hc : feedChecks fm cm = .ok u)
    (hff : from_forward (advance fm cm) = .error .assertE) :
    feed fm cm = .ok (.inl (advance fm cm)) := by
  unfold feed
  rw [if_neg h1, if_neg h2, if_neg h3, hc, hff]

theorem feed_promo_err {fm : FM} {cm : CM} {u : Unit} {e : PyErr}
    (h1 : ¬ fm.awaited = []) (h2 : ¬ fm.awaited.head? ≠ some cm.external)
    (h3 : ¬ fm.close ≠ cm.start) (hc : feedChecks fm cm = .ok u)
    (hff : from_forward (advance fm cm) = .error e) (he : e ≠ .assertE) :
    feed fm cm = .error e := by
  unfold feed
  rw [if_neg h1, if_neg h2, if_neg h3, hc, hff]
  cases e with
  | assertE => cases he rfl
  | typeE => rfl
  | attrE => rfl
  | indexE => rfl
  | keyE => rfl
  | cyclicE => rfl
  | regexE => rfl

theorem feed_promo_ok {fm : FM} {cm : CM} {u : Unit} {newcm : CM}
    (h1 : ¬ fm.awaited = []) (h2 : ¬ fm.awaited.head? ≠ some cm.external)
    (h3 : ¬ fm.close ≠ cm.start) (hc : feedChecks fm cm = .ok u)
    (hff : from_forward (advance fm cm) = .ok newcm) :
    feed fm cm =
      match cycleCheck newcm cm with
      | .error e => .error e
      | .ok true => .error .cyclicE
      | .ok false => .ok (.inr newcm) := by
  unfold feed
  rw [if_neg h1, if_neg h2, if_neg h3, hc, hff]

theorem feed_ok_shape {fm : FM} {cm : CM} {r : FM ⊕ CM}
    (h : feed fm cm = .ok r) :
    r = .inl (advance fm cm) ∨
    ∃ newcm, from_forward (advance fm cm) = .ok newcm ∧ r = .inr newcm := by
  by_cases h1 : fm.awaited = []
  · unfold feed at h
    rw [if_pos h1] at h
    cases h
  · by_cases h2 : fm.awaited.head? ≠ some cm.external
    · unfold feed at h
      rw [if_neg h1, if_pos h2] at h
      cases h
    · by_cases h3 : fm.close ≠ cm.start
      · unfold feed at h
        rw [if_neg h1, if_neg h2, if_pos h3] at h
        cases h
      · cases hc : feedChecks fm cm with
        | error e =>
          rw [feed_checks_err h1 h2 h3 hc] at h
          cases h
        | ok u =>
          cases hff : from_forward (advance fm cm) with
          | error e =>
            cases e with
            | assertE =>
              rw [feed_promo_assert h1 h2 h3 hc hff] at h
              cases h
              exact Or.inl rfl
            | typeE =>
              rw [feed_promo_err h1 h2 h3 hc hff (by simp)] at h
              cases h
            | attrE =>
              rw [feed_promo_err h1 h2 h3 hc hff (by simp)] at h
              cases h
            | indexE =>
              rw [feed_promo_err h1 h2 h3 hc hff (by simp)] at h
              cases h
            | keyE =>
              rw [feed_promo_err h1 h2 h3 hc hff (by simp)] at h
              cases h
            | cyclicE =>
              rw [feed_promo_err h1 h2 h3 hc hff (by simp)] at h
              cases h
            | regexE =>
              rw [feed_promo_err h1 h2 h3 hc hff (by simp)] at h
              cases h
          | ok newcm =>
            rw [feed_promo_ok h1 h2 h3 hc hff] at h
            cases hcy : cycleCheck newcm cm with
            | error e =>
              rw [hcy] at h
              cases h
            | ok bb =>
              rw [hcy] at h
              cases bb with
              | true => cases h
              | false =>
                cases h
                exact Or.inr ⟨newcm, rfl, rfl⟩

theorem from_forward_ok_fields {f : FM} {c : CM}
    (h : from_forward f = .ok c) :
    c.children = f.children ∧ c.start = f.start ∧ c.close = f.close := by
  unfold from_forward at h
  split at h
  · cases h
  · split at h
    · cases h
    · split at h
      · cases h
        exact ⟨rfl, rfl, rfl⟩
      · split at h
        · cases h
        · split at h
          · cases h
            exact ⟨rfl, rfl, rfl⟩
          · cases h

theorem settle_ok_fields {fm : FM} {cm : CM} {c : CM}
    (h : settle fm cm = .ok c) :
    c.children = fm.children ∧ c.start = fm.start ∧ c.close = fm.close := by
  unfold settle at h
  split at h
  · cases h
  · split at h
    · cases h
    · split at h
      · cases h
      · split at h
        · cases h
        · split at h
          · cases h
          · cases h
            exact ⟨rfl, rfl, rfl⟩

theorem from_scan_ok_children {r : TRule} {string : String} {start : Nat}
    {name : List Nat} {m : CM} (h : from_scan r string start name = .ok m) :
    m.children = [] := by
  unfold from_scan at h
  split at h
  · cases h
  · cases h
    rfl

theorem FMwf_to_TiledCM {f : FM} {c : CM} (hwf : FMwf f)
    (hch : c.children = f.children) (hs : c.start = f.start)
    (hc : c.close = f.close) : TiledCM c := by
  intro hne
  rw [hch, hs, hc]
  rw [hch] at hne
  exact tilesListB_to_props hwf hne

/-- Claim C6: every way the parser constructs a match preserves the
tiling invariant: scanned terminals and fresh forwards trivially
satisfy it, feeding a tiled forward yields a tiled forward or a tiled
complete match, and settling a tiled forward yields a tiled complete
match. -/
theorem C6_tiling :
    (∀ (r : TRule) (string : String) (start : Nat) (name : List Nat)
        (m : CM), from_scan r string start name = .ok m → TiledCM m)
  ∧ (∀ (rule : SRule) (start : Nat) (name : List Nat)
        (lb upon : Option CM), FMwf (FM.from_rule rule start name lb upon))
  ∧ (∀ (fm : FM) (cm : CM) (f2 : FM), FMwf fm →
       feed fm cm = .ok (.inl f2) → FMwf f2)
  ∧ (∀ (fm : FM) (cm : CM) (c2 : CM), FMwf fm →
       feed fm cm = .ok (.inr c2) → TiledCM c2)
  ∧ (∀ (fm : FM) (cm : CM) (c2 : CM), FMwf fm →
       settle fm cm = .ok c2 → TiledCM c2) := by
  have hadv : ∀ (fm : FM) (cm : CM), FMwf fm → fm.close = cm.start →
      FMwf (advance fm cm) := by
    intro fm cm hwf heq
    unfold FMwf advance
    simpa using tilesListB_append hwf heq.symm
  refine ⟨?_, ?_, ?_, ?_, ?_⟩
  · intro r string start name m h
    intro hne
    rw [from_scan_ok_children h] at hne
    cases hne rfl
  · intro rule start name lb upon
    simp [FMwf, FM.from_rule, tilesListB]
  · intro fm cm f2 hwf h
    rcases feed_ok_shape h with heq | ⟨newcm, _, heq⟩
    · cases heq
      exact hadv fm cm hwf (feed_ok_start_eq h)
    · cases heq
  · intro fm cm c2 hwf h
    rcases feed_ok_shape h with heq | ⟨newcm, hff, heq⟩
    · cases heq
    · cases heq
      rcases from_forward_ok_fields hff with ⟨hch, hs, hc⟩
      exact FMwf_to_TiledCM (hadv fm cm hwf (feed_ok_start_eq h)) hch hs hc
  · intro fm cm c2 hwf h
    rcases settle_ok_fields h with ⟨hch, hs, hc⟩
    exact FMwf_to_TiledCM hwf hch hs hc

/-! ### Claim C3: outcomes of feed -/

/-- The preconditions of `feed` as the specification states them: a
non-empty awaited list headed by the fed match's external, matching
positions, and the applicable left-context check (last child, `upon`
anchor, or own left-brother against the fed match). -/
def FeedPre (fm : FM) (cm : CM) : Prop :=
  fm.awaited ≠ [] ∧ fm.awaited.head? = some cm.external ∧
  fm.close = cm.start ∧
  (∀ lastc, fm.children.getLast? = some lastc →
    can_concat lastc cm = true) ∧
  (fm.children.getLast? = none →
    (∀ u, fm.upon = some u → memEqC u (history_at_start cm) = true) ∧
    (∀ lb, fm.lbro = some lb → can_concat lb cm = true))

theorem feedChecks_ok_of_pre {fm : FM} {cm : CM} (h : FeedPre fm cm) :
    feedChecks fm cm = .ok () := by
  unfold feedChecks
  cases hl : fm.children.getLast? with
  | some lastc =>
    simp only [hl]
    rw [if_pos (h.2.2.2.1 lastc hl)]
  | none =>
    simp only [hl]
    have hup : uponCheck fm cm = .ok () := by
      unfold uponCheck
      cases hu : fm.upon with
      | some u =>
        simp only [hu]
        rw [if_pos ((h.2.2.2.2 hl).1 u hu)]
      | none => simp only [hu]
    have hlb : lbroCheck fm cm = .ok () := by
      unfold lbroCheck
      cases hb : fm.lbro with
      | some lb =>
        simp only [hb]
        rw [if_pos ((h.2.2.2.2 hl).2 lb hb)]
      | none => simp only [hb]
    rw [hup]
    exact hlb

theorem from_forward_awaited_err {f : FM} (h : f.awaited ≠ []) :
    from_forward f = .error .assertE := by
  unfold from_forward
  rw [if_pos h]

theorem from_forward_unmet_err {f : FM} {ex : EXn} {lastc : CM}
    (hne : ¬ f.awaited ≠ []) (hl : f.children.getLast? = some lastc)
    (hr : f.rule.right = some ex)
    (hrb : lastc.rbro = none ∨
      ∀ rb, lastc.rbro = some rb → ex.check rb.external = false) :
    from_forward f = .error .assertE := by
  unfold from_forward
  rw [if_neg hne]
  simp only [hl, hr]
  cases hrbc : lastc.rbro with
  | none => simp only [hrbc]
  | some rb =>
    simp only [hrbc]
    rcases hrb with hnone | hfalse
    · rw [hrbc] at hnone
      cases hnone
    · rw [if_neg (by simp [hfalse rb hrbc])]

/-- Claim C3: when `feed`'s preconditions hold, the advanced forward
`fm'` is computed and: if children are still awaited the result is
`fm'`; if promotion is impossible because the right expectation is
unmet or there is no right-brother yet, the result is again `fm'`;
if promotion succeeds and the cycle check rejects, the feed itself
fails with the cyclic-match rejection; and if the cycle check accepts,
the promoted complete match is the result. -/
theorem C3_feed_outcomes (fm : FM) (cm : CM) (h : FeedPre fm cm) :
    ((advance fm cm).awaited ≠ [] →
      feed fm cm = .ok (.inl (advance fm cm)))
  ∧ ((advance fm cm).awaited = [] →
      ∀ (ex : EXn) (lastc : CM),
        (advance fm cm).rule.right = some ex →
        (advance fm cm).children.getLast? = some lastc →
        (lastc.rbro = none ∨
          ∀ rb, lastc.rbro = some rb → ex.check rb.external = false) →
        feed fm cm = .ok (.inl (advance fm cm)))
  ∧ (∀ newcm, from_forward (advance fm cm) = .ok newcm →
      (cycleCheck newcm cm = .ok true → feed fm cm = .error .cyclicE)
      ∧ (cycleCheck newcm cm = .ok false → feed fm cm = .ok (.inr newcm))) := by
  have h1 : ¬ fm.awaited = [] := h.1
  have h2 : ¬ fm.awaited.head? ≠ some cm.external := not_ne_iff.mpr h.2.1
  have h3 : ¬ fm.close ≠ cm.start := not_ne_iff.mpr h.2.2.1
  have hc : feedChecks fm cm = .ok () := feedChecks_ok_of_pre h
  refine ⟨?_, ?_, ?_⟩
  · intro hne
    exact feed_promo_assert h1 h2 h3 hc (from_forward_awaited_err hne)
  · intro hae ex lastc hr hl hrb
    exact feed_promo_assert h1 h2 h3 hc
      (from_forward_unmet_err (not_ne_iff.mpr hae) hl hr hrb)
  · intro newcm hff
    constructor
    · intro hcy
      rw [feed_promo_ok h1 h2 h3 hc hff, hcy]
    · intro hcy
      rw [feed_promo_ok h1 h2 h3 hc hff, hcy]

/-! ### Concrete fixtures for witnesses and counterexamples -/

/-- A terminal rule matching one character "a". -/
def wTrA : TRule :=
  ⟨"a", fun s => match s with
    | c :: _ => if c = 'a' then some 1 else none
    | [] => none⟩

/-- The substitution rule `S → a`. -/
def wSrS : SRule := ⟨"S", ["a"], none, none⟩

/-- The two-rule grammar `S → a`, `a → /a/`. -/
def wG : List PRule := [.sr wSrS, .tr wTrA]

/-- The terminal match of "a" at position 0. -/
def wCmA : CM := .mk (.tr wTrA) 0 1 [1, 0, 1] [] none none

/-- The seeded forward match `(S → · a)` at position 0. -/
def wFmS : FM := ⟨wSrS, 0, 0, [0], [], none, none⟩

/-- The complete match `S → a` over the whole input "a". -/
def wCmS : CM := .mk (.sr wSrS) 0 1 [0] [wCmA] none none

/-- Concrete instance for C3: the preconditions of `feed` hold for the
seeded forward `(S → · a)` and the scanned terminal "a", and feed
promotes to the complete `S` match. -/
theorem C3_feed_outcomes_witness :
    FeedPre wFmS wCmA ∧ feed wFmS wCmA = .ok (.inr wCmS) := by
  have hpre : FeedPre wFmS wCmA := by
    refine ⟨by simp [wFmS, FM.awaited, wSrS], rfl, rfl, ?_, ?_⟩
    · intro lastc hl
      cases hl
    · intro _
      constructor
      · intro u hu
        cases hu
      · intro lb hb
        cases hb
  refine ⟨hpre, ?_⟩
  exact ((C3_feed_outcomes wFmS wCmA hpre).2.2 wCmS rfl).2 rfl

/-! ### Claim C4: the cycle check crashes on a null left-brother -/

/-- Fixture rule with external "t". -/
def c4T : SRule := ⟨"t", ["q"], none, none⟩

/-- Fixture rule with external "l". -/
def c4L : SRule := ⟨"l", ["q"], none, none⟩

/-- Fixture rule `X → t`. -/
def c4X : SRule := ⟨"X", ["t"], none, none⟩

/-- Fixture rule with external "t" and body `X`. -/
def c4C : SRule := ⟨"t", ["X"], none, none⟩

/-- A childless match with external "t" spanning `[0, 1)`. -/
def c4tm : CM := .mk (.sr c4T) 0 1 [5] [] none none

/-- A childless match with external "l", used as a left-brother. -/
def c4lm : CM := .mk (.sr c4L) 0 0 [6] [] none none

/-- The prior match `prev`: external "X", one child, with a
left-brother. -/
def c4prev : CM := .mk (.sr c4X) 0 1 [7] [c4tm] (some c4lm) none

/-- The fed child `cm`: external "t", wrapping `prev`, without a
left-brother. -/
def c4cm : CM := .mk (.sr c4C) 0 1 [8] [c4prev] none none

/-- The forward match `(X → · t)` at position 0 with no context. -/
def c4fm : FM := ⟨c4X, 0, 0, [9], [], none, none⟩

/-- Claim C4 (code bug): feeding `(X → · t)` with the wrapped "t"
match reaches the cycle check with a prior match `prev` of the same
external, equal none-side wrapping spans, `prev.lbro` non-null and
`newcm.lbro` null, differing left spans — and the code then calls
`can_concat(None, prev)`, an uncaught `AttributeError`, where the
specification prescribes that the left side simply does not count as
new. -/
theorem C4_cycle_check_null_lbro_crash :
    feed c4fm c4cm = .error .attrE := rfl

/-! ### Claim C7: placement in the forward chart -/

/-- Fixture rule `S → A` with the negative right expectation
`forbid("A")`. -/
def c7S : SRule := ⟨"S", ["A"], none, some ⟨.bang, "A"⟩⟩

/-- Fixture rule `A → A`. -/
def c7A : SRule := ⟨"A", ["A"], none, none⟩

/-- The two-rule grammar with externals "S" and "A". -/
def c7g : List PRule := [.sr c7S, .sr c7A]

/-- A complete match with external "A" spanning `[0, 1)`. -/
def c7cmA : CM := .mk (.sr c7A) 0 1 [3] [] none none

/-- A forward match for `S → A ·` with no awaited children and the
`forbid("A")` right expectation, closing at 1. -/
def c7f : FM := ⟨c7S, 0, 1, [0], [c7cmA], none, none⟩

/-- The empty forward chart over the externals of the fixture
grammar. -/
def c7s0 : FMS := FMS.start (externalsOf c7g)

/-- The forward chart after adding the `forbid("A")` forward match. -/
def c7s1 : FMS :=
  match FMS.add c7s0 c7f with
  | .ok p => p.1
  | .error _ => c7s0

/-- Counterexample to C7 as stated: "A" is a known external and the
added forward match has close 1, no awaited children and the
`forbid("A")` expectation, yet after a successful insertion the bucket
at position 1 under "A" is empty — the match is not inserted under
every known external. -/
theorem C7_counterexample :
    c7s0.externals = ["S", "A"] ∧ c7f.close = 1 ∧ c7f.awaited = [] ∧
    c7f.rule.right = some ⟨.bang, "A"⟩ ∧
    FMS.add c7s0 c7f = .ok (c7s1, true) ∧
    c7s1.buckets 1 "A" = [] := by
  exact ⟨rfl, rfl, rfl, rfl, rfl, rfl⟩

/-- Claim C7, amended: a successfully inserted forward match with
awaited children goes at its close under the first awaited external; a
settled forward with `require(t)` goes at its close under `t`; and one
with `forbid(t)` goes at its close under every known external other
than `t` (equivalently, every known external satisfying the
expectation); all other buckets are unchanged. -/
theorem mem_ite_append (f : FM) (l l2 : List FM) (b : Bool) :
    f ∈ (if b = true then l ++ [f] else l2) ↔
      (b = true ∧ f ∈ l ++ [f]) ∨ (b = false ∧ f ∈ l2) := by
  cases b <;> simp

theorem C7_amended_add_placement (s : FMS) (f : FM) (s2 : FMS)
    (hadd : FMS.add s f = .ok (s2, true)) :
    (∀ a rest, f.awaited = a :: rest → ∀ i x,
        (f ∈ s2.buckets i x ↔ ((i = f.close ∧ x = a) ∨ f ∈ s.buckets i x)))
  ∧ (∀ t, f.awaited = [] → f.rule.right = some ⟨.amp, t⟩ → ∀ i x,
        (f ∈ s2.buckets i x ↔ ((i = f.close ∧ x = t) ∨ f ∈ s.buckets i x)))
  ∧ (∀ t, f.awaited = [] → f.rule.right = some ⟨.bang, t⟩ → ∀ i x,
        (f ∈ s2.buckets i x ↔
          ((i = f.close ∧ x ∈ s.externals ∧ x ≠ t) ∨
            f ∈ s.buckets i x))) := by
  unfold FMS.add at hadd
  by_cases hd : s.allMatches.any (fun x => x.eqv f) = true
  · rw [if_pos hd] at hadd
    simp at hadd
  · rw [if_neg hd] at hadd
    refine ⟨?_, ?_, ?_⟩
    · intro a rest hf i x
      rw [hf] at hadd
      by_cases hc : s.externals.contains a = true
      · simp only [if_pos hc] at hadd
        cases hadd
        refine (mem_ite_append f (s.buckets i x) (s.buckets i x)
          ((i == f.close) && (x == a))).trans ?_
        constructor
        · rintro (⟨hb, _⟩ | ⟨_, hm⟩)
          · obtain ⟨hi, hx⟩ : (i == f.close) = true ∧ (x == a) = true := by
              simpa using hb
            exact Or.inl ⟨by simpa using hi, by simpa using hx⟩
          · exact Or.inr hm
        · rintro (⟨hi, hx⟩ | hm)
          · exact Or.inl ⟨by simp [hi, hx], by simp⟩
          · by_cases hb : ((i == f.close) && (x == a)) = true
            · exact Or.inl ⟨hb, List.mem_append.mpr (Or.inl hm)⟩
            · exact Or.inr ⟨by simpa using hb, hm⟩
      · simp only [if_neg hc] at hadd
        cases hadd
    · intro t hf hr i x
      rw [hf] at hadd
      simp only [hr] at hadd
      by_cases hc : s.externals.contains t = true
      · simp only [if_pos hc] at hadd
        cases hadd
        refine (mem_ite_append f (s.buckets i x) (s.buckets i x)
          ((i == f.close) && (x == t))).trans ?_
        constructor
        · rintro (⟨hb, _⟩ | ⟨_, hm⟩)
          · obtain ⟨hi, hx⟩ : (i == f.close) = true ∧ (x == t) = true := by
              simpa using hb
            exact Or.inl ⟨by simpa using hi, by simpa using hx⟩
          · exact Or.inr hm
        · rintro (⟨hi, hx⟩ | hm)
          · exact Or.inl ⟨by simp [hi, hx], by simp⟩
          · by_cases hb : ((i == f.close) && (x == t)) = true
            · exact Or.inl ⟨hb, List.mem_append.mpr (Or.inl hm)⟩
            · exact Or.inr ⟨by simpa using hb, hm⟩
      · simp only [if_neg hc] at hadd
        cases hadd
    · intro t hf hr i x
      rw [hf] at hadd
      simp only [hr] at hadd
      cases hadd
      refine (mem_ite_append f (s.buckets i x) (s.buckets i x)
        ((i == f.close) && s.externals.contains x &&
          EXn.check ⟨.bang, t⟩ x)).trans ?_
      constructor
      · rintro (⟨hb, _⟩ | ⟨_, hm⟩)
        · obtain ⟨hic, hchk⟩ :
              ((i == f.close) && s.externals.contains x) = true ∧
              EXn.check ⟨.bang, t⟩ x = true := by
            simpa using hb
          obtain ⟨hi, hmem⟩ :
              (i == f.close) = true ∧ s.externals.contains x = true := by
            simpa using hic
          refine Or.inl ⟨by simpa using hi, List.elem_iff.mp hmem, ?_⟩
          have hnt : t ≠ x := by simpa [EXn.check] using hchk
          exact hnt.symm
        · exact Or.inr hm
      · rintro (⟨hi, hmem, hne⟩ | hm)
        · refine Or.inl ⟨?_, by simp⟩
          have hcont : s.externals.contains x = true := List.elem_iff.mpr hmem
          simp [hi, hcont, EXn.check, hne.symm, hmem]
        · by_cases hb :
              ((i == f.close) && s.externals.contains x &&
                EXn.check ⟨.bang, t⟩ x) = true
          · exact Or.inl ⟨hb, List.mem_append.mpr (Or.inl hm)⟩
          · exact Or.inr ⟨by simpa using hb, hm⟩

/-- Concrete instance for the amended C7: the `forbid("A")` forward
match is really inserted, and it lands in the bucket at its close
under the known external "S" (which satisfies the expectation). -/
theorem C7_amended_add_placement_witness :
    FMS.add c7s0 c7f = .ok (c7s1, true) ∧ c7f ∈ c7s1.buckets 1 "S" := by
  have hadd : FMS.add c7s0 c7f = .ok (c7s1, true) := rfl
  refine ⟨hadd, ?_⟩
  have h := (C7_amended_add_placement c7s0 c7f c7s1 hadd).2.2 "A" rfl rfl 1 "S"
  exact h.mpr (Or.inl ⟨rfl, by decide, by decide⟩)

/-! ### Claims C8 and C9: the empty-body substitution rule -/

/-- Claim C8 (code bug): with the successfully constructed grammar
consisting of the single empty-body rule `S → ()`, parsing the empty
string raises an uncaught `TypeError` — the driver unpacks the
missing right expectation of the seeded forward match — instead of
returning a list of solutions. -/
theorem C8_typeerror_escapes :
    runParse [PRule.sr ⟨"S", [], none, none⟩] "" (some "S") 1 =
      .err .typeE := rfl

/-- Abstract regex compilation outcome: `re.compile` either yields a
matcher or raises. -/
def TRcompile (ext : String)
    (compiled : Option (List Char → Option Nat)) :
    Except PyErr TRule :=
  match compiled with
  | none => .error .regexE
  | some f => .ok ⟨ext, f⟩

/-- Claim C9 (code bug): terminal-rule construction fails exactly when
the regex does not compile, but substitution-rule construction performs
no validation at all — the empty-body rule `S → ()` is accepted and is
even seeded into a parse, instead of failing fatally at construction
time. -/
theorem C9_empty_body_accepted :
    (∀ ext, TRcompile ext none = .error .regexE)
  ∧ (∀ ext f, TRcompile ext (some f) = .ok ⟨ext, f⟩)
  ∧ SRule.mk "S" [] none none = ⟨"S", [], none, none⟩
  ∧ seeds [PRule.sr (SRule.mk "S" [] none none)] (some "S") =
      [FM.from_rule (SRule.mk "S" [] none none) 0 [] none none] :=
  ⟨fun _ => rfl, fun _ _ => rfl, rfl, rfl⟩

/-! ### Claim C1: the returned solutions -/

/-- A returned match's external agrees with the expected one when an
expectation was given. -/
def MatchesExpect (expect : Option String) (m : CM) : Prop :=
  ∀ x, expect = some x → m.external = x

/-- The structural invariant of the complete chart: bucket membership
determines start and external, the `none` bucket determines start, and
every stored match is filed in its own bucket and in the `none`
bucket. -/
def CMSInv (s : CMS) : Prop :=
  (∀ i x m, m ∈ s.buckets i (some x) →
    m ∈ s.allMatches ∧ m.start = i ∧ m.external = x)
  ∧ (∀ i m, m ∈ s.buckets i none → m ∈ s.allMatches ∧ m.start = i)
  ∧ (∀ m, m ∈ s.allMatches →
      m ∈ s.buckets m.start (some m.external) ∧
      m ∈ s.buckets m.start none)

theorem mem_ite_append2 (x : CM) (b : Bool) (l : List CM) (m : CM) :
    x ∈ (if b = true then l ++ [m] else l) ↔
      (x ∈ l ∨ (b = true ∧ x = m)) := by
  cases b <;> simp

theorem CMSInv_start : CMSInv CMS.start := by
  refine ⟨?_, ?_, ?_⟩ <;> intro i <;> simp [CMS.start]

theorem CMSInv_add {s : CMS} {m : CM} (h : CMSInv s) :
    CMSInv (CMS.add s m).1 := by
  unfold CMS.add
  by_cases hd : s.allMatches.any (fun x => x.eqv m) = true
  · rw [if_pos hd]
    exact h
  · rw [if_neg hd]
    refine ⟨?_, ?_, ?_⟩
    · intro i x m2 hm2
      rcases (mem_ite_append2 m2 _ (s.buckets i (some x)) m).mp hm2 with
        hold | ⟨hb, hm2m⟩
      · rcases h.1 i x m2 hold with ⟨ha, hs, hx⟩
        exact ⟨List.mem_append.mpr (Or.inl ha), hs, hx⟩
      · subst hm2m
        have hb2 : i = m2.start ∧ x = m2.external := by
          simpa using hb
        exact ⟨List.mem_append.mpr (Or.inr (by simp)), hb2.1.symm,
          hb2.2.symm⟩
    · intro i m2 hm2
      rcases (mem_ite_append2 m2 _ (s.buckets i none) m).mp hm2 with
        hold | ⟨hb, hm2m⟩
      · rcases h.2.1 i m2 hold with ⟨ha, hs⟩
        exact ⟨List.mem_append.mpr (Or.inl ha), hs⟩
      · subst hm2m
        have hb2 : i = m2.start := by
          simpa using hb
        exact ⟨List.mem_append.mpr (Or.inr (by simp)), hb2.symm⟩
    · intro m2 hm2
      rcases List.mem_append.mp hm2 with hold | hnew
      · rcases h.2.2 m2 hold with ⟨h1, h2⟩
        exact ⟨(mem_ite_append2 m2 _ _ m).mpr (Or.inl h1),
          (mem_ite_append2 m2 _ _ m).mpr (Or.inl h2)⟩
      · have hm2m : m2 = m := by simpa using hnew
        subst hm2m
        constructor
        · exact (mem_ite_append2 m2 _ _ m2).mpr (Or.inr ⟨by simp, rfl⟩)
        · exact (mem_ite_append2 m2 _ _ m2).mpr (Or.inr ⟨by simp, rfl⟩)

theorem completeM_ok_cms {cms : CMS} {fms : FMS} {cm : CM} {cms1 : CMS}
    {nf : List FM} {nc : List CM}
    (h : completeM cms fms cm = .ok (cms1, nf, nc)) :
    cms1 = (CMS.add cms cm).1 := by
  unfold completeM at h
  cases hadd : CMS.add cms cm with
  | mk cms2 b =>
    rw [hadd] at h
    cases b with
    | false =>
      cases h
      rfl
    | true =>
      cases hint : interactFoldF cm (fms.select cm.start cm.external) [] []
      with
      | error e =>
        rw [hint] at h
        cases h
      | ok p =>
        rw [hint] at h
        cases h
        rfl

theorem runLoop_done_cmsInv (g : List PRule) (string : String) :
    ∀ (fuel : Nat) (st : PState), CMSInv st.cms →
      ∀ st2, runLoop g string fuel st = .done st2 → CMSInv st2.cms := by
  intro fuel
  induction fuel with
  | zero =>
    intro st h st2 hrun
    unfold runLoop at hrun
    by_cases he : st.forwards.isEmpty && st.completes.isEmpty
    · rw [if_pos he] at hrun
      cases hrun
      exact h
    · rw [if_neg he] at hrun
      cases hrun
  | succ n ih =>
    intro st h st2 hrun
    unfold runLoop at hrun
    cases hf : st.forwards with
    | cons fm rest =>
      rw [hf] at hrun
      cases hp : predictM g string st.cms st.fms fm with
      | error e =>
        simp only [hp] at hrun
        cases hrun
      | ok t =>
        rcases t with ⟨fms1, nf, nc⟩
        simp only [hp] at hrun
        refine ih _ ?_ st2 hrun
        exact h
    | nil =>
      rw [hf] at hrun
      cases hc : st.completes with
      | nil =>
        rw [hc] at hrun
        cases hrun
        exact h
      | cons cm rest =>
        rw [hc] at hrun
        cases hcm : completeM st.cms st.fms cm with
        | error e =>
          simp only [hcm] at hrun
          cases hrun
        | ok t =>
          rcases t with ⟨cms1, nf, nc⟩
          simp only [hcm] at hrun
          refine ih _ ?_ st2 hrun
          show CMSInv cms1
          rw [completeM_ok_cms hcm]
          exact CMSInv_add h

/-- Claim C1: when the driver loop terminates, every returned match has
start 0 and close equal to the input length and carries the expected
external when one was given, and the returned list is empty exactly
when the final chart contains no complete match with those
properties. -/
theorem C1_parse_result (g : List PRule) (string : String)
    (expect : Option String) (fuel : Nat) (st : PState)
    (h : runParse g string expect fuel = .done st) :
    (∀ m ∈ parseResult st string expect,
        m.start = 0 ∧ m.close = string.length ∧ MatchesExpect expect m)
  ∧ (parseResult st string expect = [] ↔
      ¬ ∃ m ∈ st.cms.allMatches,
          m.start = 0 ∧ m.close = string.length ∧ MatchesExpect expect m)
    := by
  have hinv : CMSInv st.cms :=
    runLoop_done_cmsInv g string fuel (startState g expect)
      CMSInv_start st h
  have hmem_char : ∀ m ∈ parseResult st string expect,
      m ∈ st.cms.allMatches ∧ m.start = 0 ∧ m.close = string.length ∧
      MatchesExpect expect m := by
    intro m hm
    unfold parseResult CMS.select at hm
    rcases List.mem_filter.mp hm with ⟨hb, hcl⟩
    have hclose : m.close = string.length := by simpa using hcl
    cases expect with
    | none =>
      rcases hinv.2.1 0 m hb with ⟨ha, hs⟩
      exact ⟨ha, hs, hclose, fun x hx => by cases hx⟩
    | some x =>
      rcases hinv.1 0 x m hb with ⟨ha, hs, he⟩
      exact ⟨ha, hs, hclose, fun y hy => by cases hy; exact he⟩
  constructor
  · intro m hm
    exact (hmem_char m hm).2
  · constructor
    · intro hempty
      rintro ⟨m, hmem, h0, hcl, hexp⟩
      have hbk : m ∈ st.cms.buckets 0 expect := by
        cases expect with
        | none =>
          have := (hinv.2.2 m hmem).2
          rw [h0] at this
          exact this
        | some x =>
          have hx : m.external = x := hexp x rfl
          have := (hinv.2.2 m hmem).1
          rw [h0, hx] at this
          exact this
      have : m ∈ parseResult st string expect := by
        unfold parseResult CMS.select
        exact List.mem_filter.mpr ⟨hbk, by simp [hcl]⟩
      rw [hempty] at this
      cases this
    · intro hnone
      by_contra hne
      rcases List.exists_mem_of_ne_nil _ hne with ⟨m, hm⟩
      rcases hmem_char m hm with ⟨ha, h0, hcl, hexp⟩
      exact hnone ⟨m, ha, h0, hcl, hexp⟩

/-- The final state of the concrete parse of "a" with the two-rule
grammar. -/
def wFinal : PState :=
  match runParse wG "a" (some "S") 6 with
  | .done st => st
  | .fuelOut st => st
  | .err _ => startState wG (some "S")

/-- Concrete instance for C1: the parse of "a" terminates, and every
returned match spans the whole input with the expected external. -/
theorem C1_parse_result_witness :
    runParse wG "a" (some "S") 6 = .done wFinal ∧
    ∀ m ∈ parseResult wFinal "a" (some "S"),
      m.start = 0 ∧ m.close = "a".length ∧ MatchesExpect (some "S") m := by
  have hdone : runParse wG "a" (some "S") 6 = .done wFinal := rfl
  exact ⟨hdone, (C1_parse_result wG "a" (some "S") 6 wFinal hdone).1⟩

/-- Concrete instance for C6: the seeded forward `(S → · a)` is
well-tiled, and feeding it the scanned terminal produces the tiled
complete `S` match. -/
theorem C6_tiling_witness :
    FMwf wFmS ∧ feed wFmS wCmA = .ok (.inr wCmS) ∧ TiledCM wCmS := by
  have hwf : FMwf wFmS := rfl
  have hfeed : feed wFmS wCmA = .ok (.inr wCmS) := rfl
  exact ⟨hwf, hfeed, C6_tiling.2.2.2.1 wFmS wCmA wCmS hwf hfeed⟩

/-! ### Claim C10: no null-expectation unpacking -/

/-- The key invariant: a forward match with no awaited children
carries a right expectation. -/
def PfmOK (f : FM) : Prop := f.awaited = [] → f.rule.right ≠ none

/-- The per-chart form of the invariant. -/
def FMSok (s : FMS) : Prop :=
  (∀ f ∈ s.allMatches, PfmOK f) ∧
  (∀ i x f, f ∈ s.buckets i x → PfmOK f)

/-- The per-state form of the invariant. -/
def StOK (st : PState) : Prop :=
  (∀ f ∈ st.forwards, PfmOK f) ∧ FMSok st.fms

theorem settle_typeE_char {fm : FM} {cm : CM}
    (h : settle fm cm = .error .typeE) :
    fm.awaited = [] ∧ fm.rule.right = none := by
  unfold settle at h
  split at h
  · simp at h
  · rename_i hne
    split at h
    · rename_i hr
      exact ⟨not_ne_iff.mp hne, hr⟩
    · split at h
      · simp at h
      · split at h
        · simp at h
        · split at h
          · simp at h
          · simp at h

theorem uponCheck_err_char {fm : FM} {cm : CM} {e : PyErr}
    (h : uponCheck fm cm = .error e) : e = .assertE := by
  unfold uponCheck at h
  split at h
  · split at h
    · simp at h
    · cases h
      rfl
  · simp at h

theorem lbroCheck_err_char {fm : FM} {cm : CM} {e : PyErr}
    (h : lbroCheck fm cm = .error e) : e = .assertE := by
  unfold lbroCheck at h
  split at h
  · split at h
    · simp at h
    · cases h
      rfl
  · simp at h

theorem feedChecks_err_char {fm : FM} {cm : CM} {e : PyErr}
    (h : feedChecks fm cm = .error e) : e = .assertE := by
  unfold feedChecks at h
  split at h
  · split at h
    · simp at h
    · cases h
      rfl
  · split at h
    · rename_i e2 hu
      cases h
      exact uponCheck_err_char hu
    · exact lbroCheck_err_char h

theorem from_forward_err_char {f : FM} {e : PyErr}
    (h : from_forward f = .error e) : e = .assertE ∨ e = .indexE := by
  unfold from_forward at h
  split at h
  · cases h
    exact Or.inl rfl
  · split at h
    · cases h
      exact Or.inr rfl
    · split at h
      · simp at h
      · split at h
        · cases h
          exact Or.inl rfl
        · split at h
          · simp at h
          · cases h
            exact Or.inl rfl

theorem newOnLeft_err_char {newcm prev : CM} {e : PyErr}
    (h : newOnLeft newcm prev = .error e) : e = .attrE := by
  unfold newOnLeft at h
  split at h
  · simp at h
  · split at h
    · simp at h
    · split at h
      · split at h
        · cases h
          rfl
        · simp at h
      · simp at h

theorem newOnRight_err_char {newcm prev : CM} {e : PyErr}
    (h : newOnRight newcm prev = .error e) : e = .attrE := by
  unfold newOnRight at h
  split at h
  · simp at h
  · split at h
    · simp at h
    · split at h
      · split at h
        · cases h
          rfl
        · simp at h
      · simp at h

theorem cycleCheck_err_char {newcm cm : CM} {e : PyErr}
    (h : cycleCheck newcm cm = .error e) : e = .attrE := by
  unfold cycleCheck at h
  split at h
  · simp at h
  · split at h
    · simp at h
    · split at h
      · split at h
        · rename_i e2 hl
          cases h
          exact newOnLeft_err_char hl
        · split at h
          · rename_i e2 hr
            cases h
            exact newOnRight_err_char hr
          · simp at h
      · simp at h

theorem feed_inl_char {fm : FM} {cm : CM} {f2 : FM}
    (h : feed fm cm = .ok (.inl f2)) :
    f2 = advance fm cm ∧
    from_forward (advance fm cm) = .error .assertE := by
  by_cases h1 : fm.awaited = []
  · unfold feed at h
    rw [if_pos h1] at h
    cases h
  · by_cases h2 : fm.awaited.head? ≠ some cm.external
    · unfold feed at h
      rw [if_neg h1, if_pos h2] at h
      cases h
    · by_cases h3 : fm.close ≠ cm.start
      · unfold feed at h
        rw [if_neg h1, if_neg h2, if_pos h3] at h
        cases h
      · cases hc : feedChecks fm cm with
        | error e =>
          rw [feed_checks_err h1 h2 h3 hc] at h
          cases h
        | ok u =>
          cases hff : from_forward (advance fm cm) with
          | error e =>
            cases e with
            | assertE =>
              rw [feed_promo_assert h1 h2 h3 hc hff] at h
              cases h
              exact ⟨rfl, rfl⟩
            | typeE =>
              rw [feed_promo_err h1 h2 h3 hc hff (by simp)] at h
              cases h
            | attrE =>
              rw [feed_promo_err h1 h2 h3 hc hff (by simp)] at h
              cases h
            | indexE =>
              rw [feed_promo_err h1 h2 h3 hc hff (by simp)] at h
              cases h
            | keyE =>
              rw [feed_promo_err h1 h2 h3 hc hff (by simp)] at h
              cases h
            | cyclicE =>
              rw [feed_promo_err h1 h2 h3 hc hff (by simp)] at h
              cases h
            | regexE =>
              rw [feed_promo_err h1 h2 h3 hc hff (by simp)] at h
              cases h
          | ok newcm =>
            rw [feed_promo_ok h1 h2 h3 hc hff] at h
            cases hcy : cycleCheck newcm cm with
            | error e =>
              rw [hcy] at h
              cases h
            | ok bb =>
              rw [hcy] at h
              cases bb with
              | true => cases h
              | false => simp at h

theorem feed_ne_typeE (fm : FM) (cm : CM) :
    feed fm cm ≠ .error .typeE := by
  intro h
  by_cases h1 : fm.awaited = []
  · unfold feed at h
    rw [if_pos h1] at h
    simp at h
  · by_cases h2 : fm.awaited.head? ≠ some cm.external
    · unfold feed at h
      rw [if_neg h1, if_pos h2] at h
      simp at h
    · by_cases h3 : fm.close ≠ cm.start
      · unfold feed at h
        rw [if_neg h1, if_neg h2, if_pos h3] at h
        simp at h
      · cases hc : feedChecks fm cm with
        | error e =>
          rw [feed_checks_err h1 h2 h3 hc] at h
          cases h
          have := feedChecks_err_char hc
          cases this
        | ok u =>
          cases hff : from_forward (advance fm cm) with
          | error e =>
            cases e with
            | assertE =>
              rw [feed_promo_assert h1 h2 h3 hc hff] at h
              simp at h
            | typeE =>
              rcases from_forward_err_char hff with h4 | h4 <;> cases h4
            | attrE =>
              rw [feed_promo_err h1 h2 h3 hc hff (by simp)] at h
              simp at h
            | indexE =>
              rw [feed_promo_err h1 h2 h3 hc hff (by simp)] at h
              simp at h
            | keyE =>
              rw [feed_promo_err h1 h2 h3 hc hff (by simp)] at h
              simp at h
            | cyclicE =>
              rw [feed_promo_err h1 h2 h3 hc hff (by simp)] at h
              simp at h
            | regexE =>
              rw [feed_promo_err h1 h2 h3 hc hff (by simp)] at h
              simp at h
          | ok newcm =>
            rw [feed_promo_ok h1 h2 h3 hc hff] at h
            cases hcy : cycleCheck newcm cm with
            | error e =>
              rw [hcy] at h
              cases h
              have := cycleCheck_err_char hcy
              cases this
            | ok bb =>
              rw [hcy] at h
              cases bb with
              | true => simp at h
              | false => simp at h

theorem feed_inl_P {fm : FM} {cm : CM} {f2 : FM}
    (h : feed fm cm = .ok (.inl f2)) : PfmOK f2 := by
  obtain ⟨hf2, hff⟩ := feed_inl_char h
  subst hf2
  intro hAw
  cases hR : (advance fm cm).rule.right with
  | some ex => simp
  | none =>
    exfalso
    have hgl : (advance fm cm).children.getLast? = some cm := by
      show (fm.children ++ [cm]).getLast? = some cm
      exact List.getLast?_concat _
    unfold from_forward at hff
    rw [if_neg (not_ne_iff.mpr hAw)] at hff
    simp only [hgl, hR] at hff
    cases hff


theorem insF_P {l : List FM} {f : FM} (hl : ∀ x ∈ l, PfmOK x)
    (hf : PfmOK f) : ∀ x ∈ insF l f, PfmOK x := by
  intro x hx
  unfold insF at hx
  by_cases hd : l.any (fun y => y.eqv f) = true
  · rw [if_pos hd] at hx
    exact hl x hx
  · rw [if_neg hd] at hx
    rcases List.mem_append.mp hx with h | h
    · exact hl x h
    · have hxf : x = f := by simpa using h
      subst hxf
      exact hf

theorem insListF_P {nf : List FM} :
    ∀ {l : List FM}, (∀ x ∈ l, PfmOK x) → (∀ x ∈ nf, PfmOK x) →
      ∀ x ∈ insListF l nf, PfmOK x := by
  induction nf with
  | nil =>
    intro l hl _
    exact hl
  | cons f rest ih =>
    intro l hl hn
    exact ih (insF_P hl (hn f (by simp)))
      (fun x hx => hn x (by simp [hx]))

theorem tryInteract_ne_typeE {fm : FM} {cm : CM} (hP : PfmOK fm) :
    tryInteract fm cm ≠ .error .typeE := by
  intro h
  unfold tryInteract at h
  by_cases ha : fm.awaited.isEmpty = true
  · rw [if_pos ha] at h
    cases hs : settle fm cm with
    | ok c =>
      rw [hs] at h
      simp [Except.map] at h
    | error e =>
      rw [hs] at h
      cases e with
      | typeE =>
        obtain ⟨hA, hRn⟩ := settle_typeE_char hs
        exact (hP hA) hRn
      | assertE => simp [Except.map] at h
      | attrE => simp [Except.map] at h
      | indexE => simp [Except.map] at h
      | keyE => simp [Except.map] at h
      | cyclicE => simp [Except.map] at h
      | regexE => simp [Except.map] at h
  · rw [if_neg ha] at h
    cases hf2 : feed fm cm with
    | ok v =>
      rw [hf2] at h
      simp at h
    | error e =>
      rw [hf2] at h
      cases e with
      | typeE => exact feed_ne_typeE fm cm hf2
      | assertE => simp at h
      | attrE => simp at h
      | indexE => simp at h
      | keyE => simp at h
      | cyclicE => simp at h
      | regexE => simp at h

theorem tryInteract_inl_P {fm : FM} {cm : CM} {f2 : FM}
    (h : tryInteract fm cm = .ok (some (.inl f2))) : PfmOK f2 := by
  unfold tryInteract at h
  by_cases ha : fm.awaited.isEmpty = true
  · rw [if_pos ha] at h
    cases hs : settle fm cm with
    | ok c =>
      rw [hs] at h
      simp [Except.map] at h
    | error e =>
      rw [hs] at h
      cases e <;> simp [Except.map] at h
  · rw [if_neg ha] at h
    cases hf2 : feed fm cm with
    | ok v =>
      rw [hf2] at h
      cases v with
      | inl f3 =>
        have hf3 : f3 = f2 := by simpa using h
        subst hf3
        exact feed_inl_P hf2
      | inr c => simp at h
    | error e =>
      rw [hf2] at h
      cases e <;> simp at h

theorem interactFold_P {fm : FM} (hP : PfmOK fm) :
    ∀ (l : List CM) (fs : List FM) (cs : List CM),
      (∀ f ∈ fs, PfmOK f) →
      interactFold fm l fs cs ≠ .error .typeE ∧
      (∀ fs2 cs2, interactFold fm l fs cs = .ok (fs2, cs2) →
        ∀ f ∈ fs2, PfmOK f) := by
  intro l
  induction l with
  | nil =>
    intro fs cs hfs
    constructor
    · simp [interactFold]
    · intro fs2 cs2 h f hf
      simp only [interactFold] at h
      cases h
      exact hfs f hf
  | cons cm rest ih =>
    intro fs cs hfs
    constructor
    · intro h
      unfold interactFold at h
      cases ht : tryInteract fm cm with
      | error e =>
        rw [ht] at h
        cases h
        exact (tryInteract_ne_typeE hP) ht
      | ok v =>
        rw [ht] at h
        cases v with
        | none => exact (ih fs cs hfs).1 h
        | some sv =>
          cases sv with
          | inl f3 =>
            exact (ih (insF fs f3) cs
              (insF_P hfs (tryInteract_inl_P ht))).1 h
          | inr c3 => exact (ih fs (insC cs c3) hfs).1 h
    · intro fs2 cs2 h f hf
      unfold interactFold at h
      cases ht : tryInteract fm cm with
      | error e =>
        rw [ht] at h
        cases h
      | ok v =>
        rw [ht] at h
        cases v with
        | none => exact (ih fs cs hfs).2 fs2 cs2 h f hf
        | some sv =>
          cases sv with
          | inl f3 =>
            exact (ih (insF fs f3) cs
              (insF_P hfs (tryInteract_inl_P ht))).2 fs2 cs2 h f hf
          | inr c3 => exact (ih fs (insC cs c3) hfs).2 fs2 cs2 h f hf

theorem interactFoldF_P {cm : CM} :
    ∀ (l : List FM) (fs : List FM) (cs : List CM),
      (∀ f ∈ l, PfmOK f) → (∀ f ∈ fs, PfmOK f) →
      interactFoldF cm l fs cs ≠ .error .typeE ∧
      (∀ fs2 cs2, interactFoldF cm l fs cs = .ok (fs2, cs2) →
        ∀ f ∈ fs2, PfmOK f) := by
  intro l
  induction l with
  | nil =>
    intro fs cs _ hfs
    constructor
    · simp [interactFoldF]
    · intro fs2 cs2 h f hf
      simp only [interactFoldF] at h
      cases h
      exact hfs f hf
  | cons fm rest ih =>
    intro fs cs hl hfs
    have hPfm : PfmOK fm := hl fm (by simp)
    have hrest : ∀ f ∈ rest, PfmOK f := fun f hf => hl f (by simp [hf])
    constructor
    · intro h
      unfold interactFoldF at h
      cases ht : tryInteract fm cm with
      | error e =>
        rw [ht] at h
        cases h
        exact (tryInteract_ne_typeE hPfm) ht
      | ok v =>
        rw [ht] at h
        cases v with
        | none => exact (ih fs cs hrest hfs).1 h
        | some sv =>
          cases sv with
          | inl f3 =>
            exact (ih (insF fs f3) cs hrest
              (insF_P hfs (tryInteract_inl_P ht))).1 h
          | inr c3 => exact (ih fs (insC cs c3) hrest hfs).1 h
    · intro fs2 cs2 h f hf
      unfold interactFoldF at h
      cases ht : tryInteract fm cm with
      | error e =>
        rw [ht] at h
        cases h
      | ok v =>
        rw [ht] at h
        cases v with
        | none => exact (ih fs cs hrest hfs).2 fs2 cs2 h f hf
        | some sv =>
          cases sv with
          | inl f3 =>
            exact (ih (insF fs f3) cs hrest
              (insF_P hfs (tryInteract_inl_P ht))).2 fs2 cs2 h f hf
          | inr c3 =>
            exact (ih fs (insC cs c3) hrest hfs).2 fs2 cs2 h f hf


theorem mem_ite_appendF {x f : FM} (b : Bool) {l l2 : List FM}
    (h : x ∈ (if b = true then l ++ [f] else l2)) :
    x ∈ l ∨ x = f ∨ x ∈ l2 := by
  cases b with
  | true =>
    simp only [if_pos] at h
    rcases List.mem_append.mp h with h1 | h1
    · exact Or.inl h1
    · exact Or.inr (Or.inl (by simpa using h1))
  | false =>
    simp only [Bool.false_eq_true, if_neg, not_false_iff] at h
    exact Or.inr (Or.inr h)

theorem FMS_add_ne_typeE {s : FMS} {f : FM} (hP : PfmOK f) :
    FMS.add s f ≠ .error .typeE := by
  intro h
  unfold FMS.add at h
  by_cases hd : s.allMatches.any (fun x => x.eqv f) = true
  · rw [if_pos hd] at h
    cases h
  · rw [if_neg hd] at h
    split at h
    · rename_i hAw
      split at h
      · rename_i hr
        exact (hP hAw) hr
      · split at h
        · split at h
          · cases h
          · cases h
        · cases h
    · split at h
      · cases h
      · cases h

theorem FMS_add_FMSok {s : FMS} {f : FM} {s2 : FMS} {b : Bool}
    (hP : PfmOK f) (hs : FMSok s) (h : FMS.add s f = .ok (s2, b)) :
    FMSok s2 := by
  have hall : ∀ f2 ∈ s.allMatches ++ [f], PfmOK f2 := by
    intro f2 hf2
    rcases List.mem_append.mp hf2 with h1 | h1
    · exact hs.1 f2 h1
    · have : f2 = f := by simpa using h1
      subst this
      exact hP
  unfold FMS.add at h
  by_cases hd : s.allMatches.any (fun x => x.eqv f) = true
  · rw [if_pos hd] at h
    cases h
    exact hs
  · rw [if_neg hd] at h
    split at h
    · split at h
      · cases h
      · split at h
        · split at h
          · cases h
            refine ⟨hall, ?_⟩
            intro i x f2 hf2
            rcases mem_ite_appendF _ hf2 with h1 | h1 | h1
            · exact hs.2 i x f2 h1
            · subst h1
              exact hP
            · exact hs.2 i x f2 h1
          · cases h
        · cases h
          refine ⟨hall, ?_⟩
          intro i x f2 hf2
          rcases mem_ite_appendF _ hf2 with h1 | h1 | h1
          · exact hs.2 i x f2 h1
          · subst h1
            exact hP
          · exact hs.2 i x f2 h1
    · split at h
      · cases h
        refine ⟨hall, ?_⟩
        intro i x f2 hf2
        rcases mem_ite_appendF _ hf2 with h1 | h1 | h1
        · exact hs.2 i x f2 h1
        · subst h1
          exact hP
        · exact hs.2 i x f2 h1
      · cases h

theorem from_rule_P {rule : SRule} (h : rule.act ≠ []) (start : Nat)
    (name : List Nat) (lb upon : Option CM) :
    PfmOK (FM.from_rule rule start name lb upon) := by
  intro hAw
  exfalso
  apply h
  simpa [FM.from_rule, FM.awaited] using hAw

theorem srsFor_act_ne {g : List PRule}
    (hg : ∀ r ∈ g, ∀ sr, r = PRule.sr sr → sr.act ≠ [])
    (aw : Option String) :
    ∀ p ∈ srsFor g aw, p.2.act ≠ [] := by
  intro p hp
  unfold srsFor at hp
  rcases List.mem_filterMap.mp hp with ⟨q, hq, hmap⟩
  have hqg : q.2 ∈ g := List.snd_mem_of_mem_enum hq
  cases hq2 : q.2 with
  | tr r =>
    rw [hq2] at hmap
    simp at hmap
  | sr r =>
    rw [hq2] at hmap
    have hract : r.act ≠ [] := hg q.2 hqg r hq2
    cases aw with
    | none =>
      have h2 : (q.1, r) = p := by simpa using hmap
      rw [← h2]
      exact hract
    | some a =>
      by_cases he : (r.ext == a) = true
      · have h2 : (q.1, r) = p := by simpa [he] using hmap
        rw [← h2]
        exact hract
      · exfalso
        simp [he] at hmap

theorem seeds_P {g : List PRule}
    (hg : ∀ r ∈ g, ∀ sr, r = PRule.sr sr → sr.act ≠ [])
    (expect : Option String) : ∀ f ∈ seeds g expect, PfmOK f := by
  have hgen : ∀ (rules : List (Nat × SRule)) (acc : List FM),
      (∀ p ∈ rules, p.2.act ≠ []) → (∀ f ∈ acc, PfmOK f) →
      ∀ f ∈ rules.foldl (fun a p =>
        insF a (FM.from_rule p.2 0 (naming g p.1) none none)) acc,
        PfmOK f := by
    intro rules
    induction rules with
    | nil =>
      intro acc _ hacc
      exact hacc
    | cons p rest ih =>
      intro acc hr hacc
      exact ih _ (fun q hq => hr q (by simp [hq]))
        (insF_P hacc (from_rule_P (hr p (by simp)) _ _ _ _))
  exact hgen _ [] (srsFor_act_ne hg expect) (by simp)

theorem insF_mem {l : List FM} {f x : FM} (h : x ∈ insF l f) :
    x ∈ l ∨ x = f := by
  unfold insF at h
  by_cases hd : l.any (fun y => y.eqv f) = true
  · rw [if_pos hd] at h
    exact Or.inl h
  · rw [if_neg hd] at h
    rcases List.mem_append.mp h with h1 | h1
    · exact Or.inl h1
    · exact Or.inr (by simpa using h1)

theorem predictFold_mem_step {g : List PRule} {close : Nat}
    {lcx upon : Option CM} {rest : List (Nat × SRule)} {i : Nat}
    {r : SRule} {fs fs2 : List FM} {f : FM}
    (ih : ∀ fs3 (f3 : FM), f3 ∈ predictFold g close lcx upon rest fs3 →
      f3 ∈ fs3 ∨ ∃ p ∈ rest, ∃ lb,
        f3 = FM.from_rule p.2 close (naming g p.1) lb upon)
    (hmem : f ∈ predictFold g close lcx upon rest fs2)
    (hshape : fs2 = fs ∨ ∃ lb, fs2 =
      insF fs (FM.from_rule r close (naming g i) lb upon)) :
    f ∈ fs ∨ ∃ p ∈ (i, r) :: rest, ∃ lb,
      f = FM.from_rule p.2 close (naming g p.1) lb upon := by
  rcases ih fs2 f hmem with h1 | ⟨p2, hp2, lb, hfe⟩
  · rcases hshape with rfl | ⟨lb, rfl⟩
    · exact Or.inl h1
    · rcases insF_mem h1 with h2 | h2
      · exact Or.inl h2
      · exact Or.inr ⟨(i, r), by simp, lb, h2⟩
  · exact Or.inr ⟨p2, by simp [hp2], lb, hfe⟩

theorem predictFold_mem (g : List PRule) (close : Nat)
    (lcx upon : Option CM) :
    ∀ (rules : List (Nat × SRule)) (fs : List FM) (f : FM),
      f ∈ predictFold g close lcx upon rules fs →
      f ∈ fs ∨ ∃ p ∈ rules, ∃ lb,
        f = FM.from_rule p.2 close (naming g p.1) lb upon := by
  intro rules
  induction rules with
  | nil =>
    intro fs f hf
    exact Or.inl hf
  | cons p rest ih =>
    rcases p with ⟨i, r⟩
    intro fs f hf
    have ih2 : ∀ fs3 (f3 : FM),
        f3 ∈ predictFold g close lcx upon rest fs3 →
        f3 ∈ fs3 ∨ ∃ p2 ∈ rest, ∃ lb,
          f3 = FM.from_rule p2.2 close (naming g p2.1) lb upon :=
      fun fs3 f3 h3 => ih fs3 f3 h3
    unfold predictFold at hf
    cases hL : r.left with
    | none =>
      simp only [hL] at hf
      exact predictFold_mem_step ih2 hf (Or.inr ⟨lcx, rfl⟩)
    | some lex =>
      simp only [hL] at hf
      cases hlc : lcx with
      | none =>
        simp only [hlc] at hf
        exact predictFold_mem_step (hlc ▸ ih2) hf (Or.inl rfl)
      | some lc =>
        simp only [hlc] at hf
        by_cases hchk : lex.check lc.external = true
        · rw [if_pos hchk] at hf
          exact predictFold_mem_step (hlc ▸ ih2) hf (Or.inr ⟨some lc, rfl⟩)
        · rw [if_neg hchk] at hf
          cases hfind : (history_at_close lc).find?
              (fun x => lex.check x.external) with
          | some lb =>
            rw [hfind] at hf
            exact predictFold_mem_step (hlc ▸ ih2) hf
              (Or.inr ⟨some lb, rfl⟩)
          | none =>
            rw [hfind] at hf
            exact predictFold_mem_step (hlc ▸ ih2) hf (Or.inl rfl)

theorem awaitedOf_err_char {fm : FM} {e : PyErr}
    (h : awaitedOf fm = Except.error e) :
    fm.awaited = [] ∧ fm.rule.right = none := by
  unfold awaitedOf at h
  cases hAw : fm.awaited with
  | cons a rest =>
    simp only [hAw] at h
    cases h
  | nil =>
    simp only [hAw] at h
    cases hr : fm.rule.right with
    | none => exact ⟨rfl, rfl⟩
    | some ex =>
      simp only [hr] at h
      cases h

theorem predictM_P {g : List PRule} {string : String} {cms : CMS}
    {fms : FMS} {fm : FM}
    (hg : ∀ r ∈ g, ∀ sr, r = PRule.sr sr → sr.act ≠ [])
    (hP : PfmOK fm) (hfms : FMSok fms) :
    predictM g string cms fms fm ≠ Except.error PyErr.typeE ∧
    (∀ fms1 nf nc,
      predictM g string cms fms fm = Except.ok (fms1, nf, nc) →
      FMSok fms1 ∧ ∀ f ∈ nf, PfmOK f) := by
  constructor
  · intro h
    unfold predictM at h
    cases hadd : FMS.add fms fm with
    | error e =>
      simp only [hadd] at h
      cases h
      exact FMS_add_ne_typeE hP hadd
    | ok v =>
      rcases v with ⟨fms1, b⟩
      cases b with
      | false =>
        simp only [hadd] at h
        cases h
      | true =>
        simp only [hadd] at h
        cases hA : awaitedOf fm with
        | error e2 =>
          simp only [hA] at h
          cases h
          obtain ⟨hAw2, hr2⟩ := awaitedOf_err_char hA
          exact (hP hAw2) hr2
        | ok aw =>
          simp only [hA] at h
          cases hint : interactFold fm (cms.select fm.close aw) [] [] with
          | error e2 =>
            simp only [hint] at h
            cases h
            exact (interactFold_P hP _ [] [] (by simp)).1 hint
          | ok q =>
            rcases q with ⟨fs1, cs1⟩
            simp only [hint] at h
            cases h
  · intro fms1 nf nc h
    unfold predictM at h
    cases hadd : FMS.add fms fm with
    | error e =>
      simp only [hadd] at h
      cases h
    | ok v =>
      rcases v with ⟨fms2, b⟩
      cases b with
      | false =>
        simp only [hadd, Except.ok.injEq, Prod.mk.injEq] at h
        obtain ⟨h1, h2, h3⟩ := h
        subst h1
        subst h2
        refine ⟨FMS_add_FMSok hP hfms hadd, ?_⟩
        intro f hf
        cases hf
      | true =>
        simp only [hadd] at h
        cases hA : awaitedOf fm with
        | error e2 =>
          simp only [hA] at h
          cases h
        | ok aw =>
          simp only [hA] at h
          cases hint : interactFold fm (cms.select fm.close aw) [] [] with
          | error e2 =>
            simp only [hint] at h
            cases h
          | ok q =>
            rcases q with ⟨fs1, cs1⟩
            simp only [hint, Except.ok.injEq, Prod.mk.injEq] at h
            obtain ⟨h1, h2, h3⟩ := h
            subst h1
            subst h2
            refine ⟨FMS_add_FMSok hP hfms hadd, ?_⟩
            intro f hf
            rcases predictFold_mem g fm.close (leftContextOf fm)
                (uponOf fm) (srsFor g aw) fs1 f hf with
              h4 | ⟨p2, hp2, lb, hfe⟩
            · exact (interactFold_P hP _ [] [] (by simp)).2 fs1 cs1 hint f h4
            · subst hfe
              exact from_rule_P (srsFor_act_ne hg aw p2 hp2) _ _ _ _

theorem completeM_P {cms : CMS} {fms : FMS} {cm : CM} (hfms : FMSok fms) :
    completeM cms fms cm ≠ Except.error PyErr.typeE ∧
    (∀ cms1 nf nc,
      completeM cms fms cm = Except.ok (cms1, nf, nc) →
      ∀ f ∈ nf, PfmOK f) := by
  have hbk : ∀ f ∈ fms.select cm.start cm.external, PfmOK f :=
    fun f hf => hfms.2 cm.start cm.external f hf
  constructor
  · intro h
    unfold completeM at h
    cases hadd : CMS.add cms cm with
    | mk cms1 b =>
      cases b with
      | false =>
        simp only [hadd] at h
        cases h
      | true =>
        simp only [hadd] at h
        cases hint : interactFoldF cm (fms.select cm.start cm.external)
            [] [] with
        | error e =>
          simp only [hint] at h
          cases h
          exact (interactFoldF_P _ [] [] hbk (by simp)).1 hint
        | ok q =>
          rcases q with ⟨fs, cs⟩
          simp only [hint] at h
          cases h
  · intro cms1 nf nc h
    unfold completeM at h
    cases hadd : CMS.add cms cm with
    | mk cms2 b =>
      cases b with
      | false =>
        simp only [hadd, Except.ok.injEq, Prod.mk.injEq] at h
        obtain ⟨h1, h2, h3⟩ := h
        subst h2
        intro f hf
        cases hf
      | true =>
        simp only [hadd] at h
        cases hint : interactFoldF cm (fms.select cm.start cm.external)
            [] [] with
        | error e =>
          simp only [hint] at h
          cases h
        | ok q =>
          rcases q with ⟨fs, cs⟩
          simp only [hint, Except.ok.injEq, Prod.mk.injEq] at h
          obtain ⟨h1, h2, h3⟩ := h
          subst h2
          exact (interactFoldF_P _ [] [] hbk (by simp)).2 fs cs hint

theorem runLoop_P {g : List PRule} {string : String}
    (hg : ∀ r ∈ g, ∀ sr, r = PRule.sr sr → sr.act ≠ []) :
    ∀ (fuel : Nat) (st : PState) (r : RunOut), StOK st →
      runLoop g string fuel st = r →
      r ≠ RunOut.err PyErr.typeE ∧
      (∀ st2, r = RunOut.done st2 ∨ r = RunOut.fuelOut st2 → StOK st2) := by
  intro fuel
  induction fuel with
  | zero =>
    intro st r h hc
    simp only [runLoop] at hc
    by_cases he : (st.forwards.isEmpty && st.completes.isEmpty) = true
    · rw [if_pos he] at hc
      subst hc
      refine ⟨?_, ?_⟩
      · intro h2
        cases h2
      intro st2 h2
      rcases h2 with h2 | h2
      · cases h2
        exact h
      · cases h2
    · rw [if_neg he] at hc
      subst hc
      refine ⟨?_, ?_⟩
      · intro h2
        cases h2
      intro st2 h2
      rcases h2 with h2 | h2
      · cases h2
      · cases h2
        exact h
  | succ n ih =>
    intro st r h hc
    simp only [runLoop] at hc
    cases hfw : st.forwards with
    | cons fm rest =>
      simp only [hfw] at hc
      have hPfm : PfmOK fm := h.1 fm (by rw [hfw]; simp)
      have hrest : ∀ f ∈ rest, PfmOK f :=
        fun f hf2 => h.1 f (by rw [hfw]; simp [hf2])
      cases hp : predictM g string st.cms st.fms fm with
      | error e =>
        simp only [hp] at hc
        subst hc
        refine ⟨?_, ?_⟩
        · intro h2
          cases h2
          exact (predictM_P hg hPfm h.2).1 hp
        · intro st2 h2
          rcases h2 with h2 | h2 <;> cases h2
      | ok v =>
        rcases v with ⟨fms1, nf, nc⟩
        simp only [hp] at hc
        obtain ⟨hok1, hnf⟩ := (predictM_P hg hPfm h.2).2 fms1 nf nc hp
        exact ih ⟨insListF rest nf, insListC st.completes nc, st.cms, fms1⟩
          r ⟨insListF_P hrest hnf, hok1⟩ hc
    | nil =>
      simp only [hfw] at hc
      cases hcw : st.completes with
      | nil =>
        simp only [hcw] at hc
        subst hc
        refine ⟨?_, ?_⟩
        · intro h2
          cases h2
        intro st2 h2
        rcases h2 with h2 | h2
        · cases h2
          exact h
        · cases h2
      | cons cm rest =>
        simp only [hcw] at hc
        cases hp : completeM st.cms st.fms cm with
        | error e =>
          simp only [hp] at hc
          subst hc
          refine ⟨?_, ?_⟩
          · intro h2
            cases h2
            exact (completeM_P h.2).1 hp
          · intro st2 h2
            rcases h2 with h2 | h2 <;> cases h2
        | ok v =>
          rcases v with ⟨cms1, nf, nc⟩
          simp only [hp] at hc
          have hnf := (completeM_P h.2).2 cms1 nf nc hp
          exact ih ⟨insListF [] nf, insListC rest nc, cms1, st.fms⟩
            r ⟨insListF_P (fun x hx => absurd hx (List.not_mem_nil x)) hnf,
              h.2⟩ hc

/-- C10: provided every substitution rule of the grammar has a
non-empty body, the parse never raises the `TypeError` of unpacking a
null expectation: every forward match processed by the driver or
stored in the forward chart has a non-null right expectation whenever
its awaited sequence is empty, and the run never ends in a
`TypeError`. -/
theorem C10_no_null_expectation (g : List PRule) (string : String)
    (expect : Option String) (fuel : Nat)
    (hg : ∀ r ∈ g, ∀ sr, r = PRule.sr sr → sr.act ≠ []) :
    runParse g string expect fuel ≠ RunOut.err PyErr.typeE ∧
    (∀ st, runParse g string expect fuel = RunOut.done st ∨
           runParse g string expect fuel = RunOut.fuelOut st →
      (∀ f ∈ st.forwards, PfmOK f) ∧
      (∀ f ∈ st.fms.allMatches, PfmOK f) ∧
      (∀ i x f, f ∈ st.fms.buckets i x → PfmOK f)) := by
  have hinit : StOK (startState g expect) := by
    refine ⟨seeds_P hg expect, ?_, ?_⟩
    · intro f hf
      cases hf
    · intro i x f hf
      cases hf
  have hmain := runLoop_P hg fuel (startState g expect)
    (runParse g string expect fuel) hinit rfl
  constructor
  · exact hmain.1
  · intro st hrun
    have h2 := hmain.2 st hrun
    exact ⟨h2.1, h2.2.1, h2.2.2⟩

theorem C10_no_null_expectation_witness :
    (∀ r ∈ wG, ∀ sr, r = PRule.sr sr → sr.act ≠ []) ∧
    runParse wG "a" (some "S") 6 ≠ RunOut.err PyErr.typeE := by
  have hg : ∀ r ∈ wG, ∀ sr, r = PRule.sr sr → sr.act ≠ [] := by
    intro r hr sr hsr
    simp [wG] at hr
    rcases hr with rfl | rfl
    · cases hsr
      simp [wSrS]
    · cases hsr
  exact ⟨hg, (C10_no_null_expectation wG "a" (some "S") 6 hg).1⟩

end Parakeet
